import Mathlib

/-!
# news-aggregator: a shallow embedding and its verified properties

The development follows the Go packages of the repository:

* `time`            the fragment of Go's `time` package the program uses;
* `entity`          `entity.Article` and its ordering by publish time;
* `mongo`           the MongoDB collection the store talks to (records, filters, the
                    three driver calls the program issues);
* `mongodb`         `mongodb.Store` (src/mongodb/store.go);
* `strings`, `strconv`  the string functions the lenta.ru adapter parses with;
* `lentaru`         the lenta.ru adapter (src/sources/lentaru/source.go);
* `newsaggregator`  the orchestrator (src/news_aggregator.go).

Definitions come first, then concrete inputs, then the properties.

Modelling conventions.

* An instant is an integer number of nanoseconds since the Unix epoch; a `time.Time`
  is an instant together with the location it is expressed in.  A location is an
  offset from UTC with the transitions at which the offset changes (daylight saving
  time); Europe/Moscow is listed as UTC+3, its rule since 2014-10-26.
* A calendar date `(Year, Month, Day)` is represented by its ordinal, the number of
  days since 1970-01-01; the two are in bijection, and `time.Date` is linear in it.
  The URL of a day listing, which spells the date out, is represented by the ordinal
  as well.
* A Go `error` is either the sentinel `mongodb.ErrNotFound` or a message built with
  `errors.New`.
* Everything outside the process (the database server, the keyword tool, the clock,
  the publisher) is an explicit input: a script of driver faults, a function from
  text to keywords, the value of `time.Now()`, the answers of the site or source.
* The records of the collection are written by the program only, so decoding one
  does not fail.
* The goroutines of one cycle are run one after the other; the interleaving of
  concurrent invocations of `process` is modelled apart, by atomic steps.
* Logging is not modelled.
-/

/-! ## Go errors -/

/-- A Go `error` value: the sentinel `mongodb.ErrNotFound`, or an error made by
`errors.New` with the given message. -/
inductive GoError where
  | ErrNotFound
  | New (msg : String)
deriving DecidableEq, Repr

deriving instance DecidableEq for Except

/-! ## Package time -/

namespace time

/-- A period of a location during which one offset is in force: the offset east of
UTC in seconds, and the Unix seconds at which the period starts and ends, where
`none` is no bound. -/
structure Period where
  offset : Int
  start : Option Int
  stop : Option Int
deriving DecidableEq, Repr

/-- Does the Unix second `utc` lie within the period? -/
def Period.covers (p : Period) (utc : Int) : Bool :=
  (match p.start with
   | none => true
   | some start => decide (start ≤ utc))
  && (match p.stop with
      | none => true
      | some stop => decide (utc < stop))

/-- A `*time.Location`: the offset east of UTC, in seconds, in force before the first
transition, and the transitions in ascending order, each the Unix second from which
a new offset is in force, with that offset.  A location without transitions is a
fixed offset. -/
structure Location where
  offset : Int
  transitions : List (Int × Int)
deriving DecidableEq, Repr

/-- The period in force at `sec` among the transitions left, when `offset` has been in
force since `start`. -/
def Location.lookupFrom (offset : Int) (start : Option Int) :
    List (Int × Int) → Int → Period
  | [], _ => ⟨offset, start, none⟩
  | (tx, next) :: rest, sec =>
    if sec < tx then ⟨offset, start, some tx⟩
    else Location.lookupFrom next (some tx) rest sec

/-- The method `lookup`: the period in force at the Unix second `sec`, that of the
last transition at or before it. -/
def Location.lookup (l : Location) (sec : Int) : Period :=
  Location.lookupFrom l.offset none l.transitions sec

/-- The location `time.UTC`. -/
def UTC : Location := ⟨0, []⟩

/-- A `time.Duration`, in nanoseconds. -/
abbrev Duration := Int

def Nanosecond : Duration := 1
def Second : Duration := 1000000000 * Nanosecond
def Minute : Duration := 60 * Second
def Hour : Duration := 60 * Minute

/-- A `time.Time`: an instant (nanoseconds since the Unix epoch) and the location
in which its calendar fields are read. -/
structure Time where
  ns : Int
  loc : Location
deriving DecidableEq, Repr

namespace Time

/-- The wall clock of `t` in its own location, in nanoseconds since 1970-01-01T00:00
of that location: the instant moved by the offset in force at it. -/
def wall (t : Time) : Int := t.ns + (t.loc.lookup (t.ns / Second)).offset * Second

/-- The calendar date `(t.Year(), t.Month(), t.Day())`, read in `t`'s own location,
as a day ordinal. -/
def YMD (t : Time) : Int := t.wall / (24 * Hour)

/-- The time of day `t.Clock()`, read in `t`'s own location: hour, minute, second. -/
def Clock (t : Time) : Int × Int × Int :=
  let inDay := t.wall % (24 * Hour)
  (inDay / Hour, inDay % Hour / Minute, inDay % Minute / Second)

/-- The nanosecond within the second, `t.Nanosecond()`. -/
def Nanosecond (t : Time) : Int := t.wall % Second

/-- Instant comparison `t.Equal(u)`; locations are ignored. -/
def Equal (t u : Time) : Bool := decide (t.ns = u.ns)

/-- Instant comparison `t.After(u)`. -/
def After (t u : Time) : Bool := decide (u.ns < t.ns)

/-- Instant comparison `t.Before(u)`. -/
def Before (t u : Time) : Bool := decide (t.ns < u.ns)

/-- The time `t.Add(d)`: the instant moves, the location stays. -/
def Add (t : Time) (d : Duration) : Time := ⟨t.ns + d, t.loc⟩

/-- The time `t.In(loc)`: the same instant, expressed in `loc`. -/
def In (t : Time) (loc : Location) : Time := ⟨t.ns, loc⟩

/-- The time `t.UnixNano() / 1e6` rounded down: the BSON datetime of `t`, in milliseconds. -/
def millis (t : Time) : Int := t.ns / 1000000

end Time

/-- The constructor `time.Date(year, month, day, hour, min, sec, nsec, loc)`, the
date given by its ordinal `ymd`.  Out-of-range fields carry over, as in Go.  The
wall clock asked for is first read as if it were UTC; the offset in force there is
taken when the instant it leads to lies in the same period, else the offset in force
at that instant. -/
def Date (ymd hour min sec nsec : Int) (loc : Location) : Time :=
  let wall := ymd * (24 * Hour) + hour * Hour + min * Minute + sec * Second + nsec
  let unix := wall / Second
  let p := loc.lookup unix
  let offset :=
    if p.offset ≠ 0 then
      let utc := unix - p.offset
      if p.covers utc then p.offset else (loc.lookup utc).offset
    else p.offset
  ⟨wall - offset * Second, loc⟩

/-- The ordinal of the calendar date `year`-`month`-`day` of the proleptic Gregorian
calendar: the number of days from 1970-01-01 to it. -/
def ordinal (year month day : Int) : Int :=
  let y := if month ≤ 2 then year - 1 else year
  let era := y / 400
  let yoe := y - era * 400
  let doy := (153 * (if month > 2 then month - 3 else month + 9) + 2) / 5 + day - 1
  let doe := yoe * 365 + yoe / 4 - yoe / 100 + doy
  era * 146097 + doe - 719468

/-- The `count` consecutive calendar dates from `first` on, in ascending order. -/
def days (first : Int) : Nat → List Int
  | 0 => []
  | count + 1 => first :: days (first + 1) count

/-- The call `t.AddDate(0, 0, days)`, the only form the program uses: Go rebuilds
the time with `Date` from the calendar fields of `t`, the day moved by `days`.  In a
location with transitions the result need not be `days` times 24 hours away. -/
def Time.AddDate (t : Time) (days : Int) : Time :=
  let (hour, min, sec) := t.Clock
  Date (t.YMD + days) hour min sec t.Nanosecond t.loc

end time

/-! ## Package entity -/

namespace entity

open time

/-- The record `entity.Article`. -/
structure Article where
  URL : String
  Header : String
  PublishedAt : Time
  Text : String
  SourceName : String
deriving DecidableEq, Repr

end entity

/-! ## The MongoDB collection -/

namespace mongo

open time

/-- The BSON values that occur in the `articles` collection and in the filters the
program sends. -/
inductive Value where
  | str (s : String)
  | date (ms : Int)
  | strs (xs : List String)
deriving DecidableEq, Repr

/-- The right-hand side of a field in a filter document: a plain value, or an
embedded document `bson.M{k: v, ..}`. -/
inductive Cond where
  | val (v : Value)
  | sub (kvs : List (String × Value))
deriving DecidableEq, Repr

/-- A filter document `bson.M{field: cond, ..}`. -/
abbrev Filter := List (String × Cond)

/-- A stored record: the BSON image of `articleWithKeywords`.  The publish time is a
BSON datetime (milliseconds since the epoch, no location); a nil keyword slice is
stored as null, which every filter of the program treats like the empty array. -/
structure Doc where
  url : String
  header : String
  publishedAt : Int
  text : String
  sourceName : String
  keywords : List String
deriving DecidableEq, Repr

/-- The value of a top-level field of a stored record. -/
def Doc.field (d : Doc) (name : String) : Option Value :=
  if name = "url" then some (.str d.url)
  else if name = "header" then some (.str d.header)
  else if name = "publishedAt" then some (.date d.publishedAt)
  else if name = "text" then some (.str d.text)
  else if name = "sourceName" then some (.str d.sourceName)
  else if name = "keywords" then some (.strs d.keywords)
  else none

/-- Equality match of a field value against a plain value: equal, or an array
holding it. -/
def valueEq (v : Option Value) (w : Value) : Bool :=
  match v, w with
  | some (.strs xs), .str s => decide (s ∈ xs)
  | some u, _ => decide (u = w)
  | none, _ => false

/-- One query operator applied to a field value.  The program only sends `$all`;
the server rejects an operator it does not know. -/
def applyOperator (v : Option Value) (op : String) (arg : Value) : Except String Bool :=
  if op = "$all" then
    match arg, v with
    | .strs qs, some (.strs xs) => .ok (!qs.isEmpty && qs.all (fun q => decide (q ∈ xs)))
    | .strs _, _ => .ok false
    | _, _ => .error "$all needs an array"
  else .error ("unknown operator: " ++ op)

/-- All operators of an operator document must hold. -/
def applyOperators (v : Option Value) : List (String × Value) → Except String Bool
  | [] => .ok true
  | (op, arg) :: rest =>
    match applyOperator v op arg with
    | .error e => .error e
    | .ok b =>
      match applyOperators v rest with
      | .error e => .error e
      | .ok bs => .ok (b && bs)

/-- Does the key name a query operator?  Operators start with a dollar sign. -/
def isOperator (key : String) : Bool := key.data.head? = some '$'

/-- The server's reading of `field: cond`.  An embedded document whose first key is
an operator is an operator expression; any other embedded document is a literal to
compare the field with, and no field of a stored record holds an embedded document. -/
def matchCond (v : Option Value) : Cond → Except String Bool
  | .val w => .ok (valueEq v w)
  | .sub [] => .ok false
  | .sub ((k, a) :: rest) =>
    if isOperator k then applyOperators v ((k, a) :: rest) else .ok false

/-- A record matches a filter when it matches every field of it; the empty filter
matches every record. -/
def matchDoc (d : Doc) : Filter → Except String Bool
  | [] => .ok true
  | (name, c) :: rest =>
    match matchCond (d.field name) c with
    | .error e => .error e
    | .ok b =>
      match matchDoc d rest with
      | .error e => .error e
      | .ok bs => .ok (b && bs)

/-- The records of a list that match a filter, in order; an error if the server
rejects the filter on one of them. -/
def selectDocs (f : Filter) : List Doc → Except String (List Doc)
  | [] => .ok []
  | d :: ds =>
    match matchDoc d f with
    | .error e => .error e
    | .ok b =>
      match selectDocs f ds with
      | .error e => .error e
      | .ok rest => .ok (if b then d :: rest else rest)

/-- The records of a list that do not match a filter, in order. -/
def rejectDocs (f : Filter) : List Doc → Except String (List Doc)
  | [] => .ok []
  | d :: ds =>
    match matchDoc d f with
    | .error e => .error e
    | .ok b =>
      match rejectDocs f ds with
      | .error e => .error e
      | .ok rest => .ok (if b then rest else d :: rest)

/-- A failed round trip: the driver's message, and for a bulk write the number of
leading inserts the server had applied before it failed. -/
structure Fault where
  msg : String
  applied : Nat
deriving DecidableEq, Repr

/-- A round trip the driver made to the server. -/
inductive Op where
  | aggregate (filter : Filter) (limit : Nat)
  | bulkWrite (writes : List Doc)
  | deleteMany (filter : Filter)
deriving DecidableEq, Repr

/-- The `articles` collection as the program sees it: the stored records in insertion
order, the round trips made so far (oldest first), the outcome the environment has
in store for the coming round trips (`none`, or an exhausted script, is a healthy
round trip), and the location the driver attaches to a decoded datetime. -/
structure Collection where
  docs : List Doc
  log : List Op
  faults : List (Option Fault)
  loc : Location
deriving DecidableEq, Repr

namespace Collection

/-- The outcome of the coming round trip. -/
def nextFault (c : Collection) : Option Fault := c.faults.head?.join

/-- The collection after a round trip `op` that leaves the records as `docs`. -/
def after (c : Collection) (op : Op) (docs : List Doc) : Collection :=
  { c with docs := docs, log := c.log ++ [op], faults := c.faults.tail }

/-- The sort stage `$sort: publishedAt: -1`: newest first.  The server leaves the order
of records of equal publish time open; the model keeps their insertion order. -/
def sortDesc (ds : List Doc) : List Doc :=
  ds.insertionSort (fun a b => b.publishedAt ≤ a.publishedAt)

/-- The pipeline `[$match: filter, $sort: publishedAt: -1, $limit: limit]` run by
`Aggregate`, and the read of the whole cursor. -/
def Aggregate (c : Collection) (filter : Filter) (limit : Nat) :
    Except String (List Doc) × Collection :=
  let c1 := c.after (.aggregate filter limit) c.docs
  match c.nextFault with
  | some f => (.error f.msg, c1)
  | none =>
    match selectDocs filter c.docs with
    | .error e => (.error e, c1)
    | .ok ms => (.ok ((sortDesc ms).take limit), c1)

/-- The ordered bulk write of insert models.  The driver refuses an empty batch
without a round trip; a failed round trip may have applied leading inserts. -/
def BulkWrite (c : Collection) (writes : List Doc) : Except String Unit × Collection :=
  if writes.isEmpty then (.error "must provide at least one element in input slice", c)
  else
    match c.nextFault with
    | some f => (.error f.msg, c.after (.bulkWrite writes) (c.docs ++ writes.take f.applied))
    | none => (.ok (), c.after (.bulkWrite writes) (c.docs ++ writes))

/-- The call `DeleteMany(filter)`: removes every record matching the filter. -/
def DeleteMany (c : Collection) (filter : Filter) : Except String Unit × Collection :=
  match c.nextFault with
  | some f => (.error f.msg, c.after (.deleteMany filter) c.docs)
  | none =>
    match rejectDocs filter c.docs with
    | .error e => (.error e, c.after (.deleteMany filter) c.docs)
    | .ok kept => (.ok (), c.after (.deleteMany filter) kept)

end Collection

end mongo

/-- The message `err.Error()` of a Go error. -/
def GoError.Error : GoError → String
  | .ErrNotFound => "not found"
  | .New msg => msg

/-! ## Package mongodb (src/mongodb/store.go) -/

namespace mongodb

open time entity mongo

/-- The interface `KeywordsExtractor`: its one method `ExtractKeywords`. -/
abbrev KeywordsExtractor := String → Except GoError (List String)

/-- The record `articleWithKeywords`: an article with its keyword set inlined. -/
structure articleWithKeywords where
  Article : Article
  Keywords : List String
deriving DecidableEq, Repr

/-- The BSON image of an `articleWithKeywords`, as the driver encodes it. -/
def encode (a : articleWithKeywords) : Doc :=
  { url := a.Article.URL, header := a.Article.Header,
    publishedAt := a.Article.PublishedAt.millis, text := a.Article.Text,
    sourceName := a.Article.SourceName, keywords := a.Keywords }

/-- The `entity.Article` the driver decodes from a stored record; the publish time
comes back in the driver's location. -/
def decode (loc : Location) (d : Doc) : Article :=
  { URL := d.url, Header := d.header, PublishedAt := ⟨d.publishedAt * 1000000, loc⟩,
    Text := d.text, SourceName := d.sourceName }

/-- The type `Store`: the `articles` collection and the keyword extractor. -/
structure Store where
  articles : Collection
  keywordsExtractor : KeywordsExtractor

/-- The loop of `AddArticles` that builds `writes`: one insert model per article, the
article with its keywords; the first failing extraction ends the loop with its error. -/
def AddArticles.writes (ke : KeywordsExtractor) :
    List Article → Except GoError (List articleWithKeywords)
  | [] => .ok []
  | a :: rest =>
    match ke a.Text with
    | .error err => .error (.New ("failed to extract keywords: " ++ err.Error))
    | .ok kw =>
      match AddArticles.writes ke rest with
      | .error err => .error err
      | .ok ws => .ok ({ Article := a, Keywords := kw } :: ws)

/-- The method `Store.AddArticles`. -/
def Store.AddArticles (s : Store) (as : List Article) : Option GoError × Store :=
  match AddArticles.writes s.keywordsExtractor as with
  | .error err => (some err, s)
  | .ok writes =>
    match s.articles.BulkWrite (writes.map encode) with
    | (.error e, c) =>
      (some (.New ("failed to bulk write to mongodb: " ++ e)), { s with articles := c })
    | (.ok _, c) => (none, { s with articles := c })

/-- The method `Store.FindArticles`. -/
def Store.FindArticles (s : Store) (query : String) : Except GoError (List Article) × Store :=
  match s.keywordsExtractor query with
  | .error err =>
    (.error (.New ("failed to extract keywords from query: " ++ err.Error)), s)
  | .ok qkws =>
    let filter : Filter :=
      if qkws.length > 0 then [("keywords", .sub [("$all", .strs qkws)])] else []
    match s.articles.Aggregate filter 100 with
    | (.error e, c) => (.error (.New ("failed to aggregate: " ++ e)), { s with articles := c })
    | (.ok ds, c) => (.ok (ds.map (decode c.loc)), { s with articles := c })

/-- The sentinel `ErrNotFound`. -/
def ErrNotFound : GoError := .ErrNotFound

/-- The method `Store.LatestArticle`. -/
def Store.LatestArticle (s : Store) (sourceName : String) : Except GoError Article × Store :=
  match s.articles.Aggregate [("sourceName", .val (.str sourceName))] 1 with
  | (.error e, c) => (.error (.New ("failed to aggregate: " ++ e)), { s with articles := c })
  | (.ok [], c) => (.error ErrNotFound, { s with articles := c })
  | (.ok (d :: _), c) => (.ok (decode c.loc d), { s with articles := c })

/-- The method `Store.RemoveOldArticles`: the filter is
`bson.M{"publishedAt": bson.M{"le": to}}`, as written in the source (`to` is `toTime` here). -/
def Store.RemoveOldArticles (s : Store) (toTime : Time) : Option GoError × Store :=
  match s.articles.DeleteMany [("publishedAt", .sub [("le", .date toTime.millis)])] with
  | (.error e, c) => (some (.New e), { s with articles := c })
  | (.ok _, c) => (none, { s with articles := c })

/-- A stored record matches the keyword set of a query when the set is empty or every
keyword of it is among the stored keywords of the record. -/
def Matches (qkws : List String) (d : mongo.Doc) : Prop :=
  qkws = [] ∨ ∀ q ∈ qkws, q ∈ d.keywords

instance (qkws : List String) (d : mongo.Doc) : Decidable (Matches qkws d) := by
  unfold Matches
  infer_instance

end mongodb

/-! ## Packages strings and strconv -/

namespace strings

/-- The predicate `unicode.IsSpace`. -/
def isSpace (c : Char) : Bool :=
  let n := c.toNat
  (9 ≤ n && n ≤ 13) || n = 32 || n = 133 || n = 160 || n = 5760 ||
    (8192 ≤ n && n ≤ 8202) || n = 8232 || n = 8233 || n = 8239 || n = 8287 || n = 12288

/-- The function `strings.TrimSpace`: leading and trailing white space removed. -/
def TrimSpace (s : String) : String :=
  ⟨((s.data.dropWhile isSpace).reverse.dropWhile isSpace).reverse⟩

/-- The pieces of a character list between the occurrences of `sep`. -/
def splitChars (sep : Char) : List Char → List (List Char)
  | [] => [[]]
  | c :: cs =>
    if c = sep then [] :: splitChars sep cs
    else
      match splitChars sep cs with
      | [] => [[c]]
      | p :: ps => (c :: p) :: ps

/-- The function `strings.Split(s, sep)` for a separator of one character. -/
def Split (s : String) (sep : Char) : List String :=
  (splitChars sep s.data).map String.mk

end strings

namespace strconv

/-- The function `strconv.ParseUint(s, 10, 64)`: a non-empty run of decimal digits
whose value fits 64 bits.  The error message names the input in quotes. -/
def ParseUint (s : String) : Except String Nat :=
  if s.data.isEmpty || !s.data.all Char.isDigit then
    .error ("strconv.ParseUint: parsing " ++ s.quote ++ ": invalid syntax")
  else
    let n := s.data.foldl (fun acc c => acc * 10 + (c.toNat - 48)) 0
    if n < 2 ^ 64 then .ok n
    else .error ("strconv.ParseUint: parsing " ++ s.quote ++ ": value out of range")

end strconv

/-! ## Package lentaru (src/sources/lentaru/source.go) -/

namespace lentaru

open time entity

def SourceName : String := "lenta.ru"

def baseURL : String := "https://lenta.ru"

/-- The location Europe/Moscow: UTC+3, as since 2014-10-26; its earlier offsets are
not listed. -/
def Moscow : Location := ⟨3 * 3600, []⟩

/-- An HTTP response: its status code, and what goquery makes of its body (the
selected content, or the error of reading it). -/
structure Response (α : Type) where
  StatusCode : Nat
  Body : Except String α

/-- One `.item.news` element of a day listing: the `href` of `.titles > h3 > a` if
present, the text of `.time`, the text of `.titles > h3 > a > span`. -/
structure Item where
  href : Option String
  time : String
  header : String
deriving DecidableEq, Repr

/-- The publisher's site during one call of the adapter: the answer to a GET of the
listing of a day (the listing URL is fixed by the date and stands for it), and to a
GET of an article URL (the texts of its `.b-text > p` elements).  An `error` is a
failed request. -/
structure Web where
  listing : Int → Except String (Response (List Item))
  article : String → Except String (Response (List String))

/-- The type `Source`: the Moscow location, the HTTP client with the site behind it,
and `html.UnescapeString`, which is left uninterpreted. -/
structure Source where
  moscow : Location
  http : Web
  unescape : String → String

/-- The method `Name`. -/
def Source.Name (_ : Source) : String := SourceName

/-- The method `toDateWithTime`. -/
def Source.toDateWithTime (s : Source) (dt : Time) (hour minute : Int) : Time :=
  Date dt.YMD hour minute 0 0 s.moscow

/-- The function `formArticlesURL`: the listing URL of the date of `t`, read in the
location of `t`. -/
def formArticlesURL (t : Time) : Int := t.YMD

/-- The method `setDateTime`. -/
def Source.setDateTime (s : Source) (dt : Time) (timeStr : String) : Except GoError Time :=
  match strings.Split timeStr ':' with
  | [p0, p1] =>
    match strconv.ParseUint p0 with
    | .error err => .error (.New ("failed to parse hour: " ++ err))
    | .ok hour =>
      if hour > 23 then .error (.New "failed to parse hour: should be less than 24")
      else
        match strconv.ParseUint p1 with
        | .error err => .error (.New ("failed to parse minute: " ++ err))
        | .ok minute =>
          if minute > 59 then
            .error (.New "failed to parse minute: should be less than 59")
          else .ok (s.toDateWithTime dt hour minute)
  | _ => .error (.New "expected 2 time parts")

/-- The `EachWithBreak` loop of `articles`: one article per listing element, in
document order; the first element without a URL or with an unreadable time stops the
loop with `findErr`. -/
def Source.articles.each (s : Source) (frm : Time) : List Item → Except GoError (List Article)
  | [] => .ok []
  | sel :: rest =>
    match sel.href with
    | none => .error (.New "failed to find article URL")
    | some urlPath =>
      match s.setDateTime frm (strings.TrimSpace sel.time) with
      | .error err => .error (.New ("failed to set date time: " ++ err.Error))
      | .ok publishedAt =>
        match Source.articles.each s frm rest with
        | .error err => .error err
        | .ok as =>
          .ok ({ URL := baseURL ++ urlPath, Header := s.unescape (strings.TrimSpace sel.header),
                 PublishedAt := publishedAt, Text := "", SourceName := SourceName } :: as)

/-- The method `articleText`. -/
def Source.articleText (s : Source) (aURL : String) : Except GoError String :=
  match s.http.article aURL with
  | .error err => .error (.New ("failed to HTTP get article URL: " ++ err))
  | .ok res =>
    if res.StatusCode ≠ 200 then .error (.New "not OK status code")
    else
      match res.Body with
      | .error err => .error (.New ("failed to parse article HTML: " ++ err))
      | .ok ps => .ok ("\n".intercalate (ps.map (fun p => strings.TrimSpace (s.unescape p))))

/-- The last loop of `articles`: the text of each retained article is fetched, in
order; the first failure ends the call. -/
def Source.articles.texts (s : Source) : List Article → Except GoError (List Article)
  | [] => .ok []
  | a :: rest =>
    match s.articleText a.URL with
    | .error err => .error (.New ("failed to get article text: " ++ err.Error))
    | .ok text =>
      match Source.articles.texts s rest with
      | .error err => .error err
      | .ok as => .ok ({ a with Text := text } :: as)

end lentaru

namespace entity

/-- The call `sort.Sort(ArticlesByPublishedAt(as))`: ascending by `PublishedAt`, as
`Less` compares.  `sort.Sort` leaves the order of articles of equal publish time
open; the model keeps their order. -/
def sortByPublishedAt (as : List Article) : List Article :=
  as.insertionSort (fun a b => a.PublishedAt.ns ≤ b.PublishedAt.ns)

end entity

namespace lentaru

open time entity

/-- The scan of `articles` for `fromIndex`: the articles from the first one published
at or after `frm` on; the empty list when there is none (`fromIndex == -1`). -/
def Source.articles.fromIndex (frm : Time) : List Article → List Article
  | [] => []
  | a :: rest =>
    if a.PublishedAt.Equal frm || a.PublishedAt.After frm then a :: rest
    else Source.articles.fromIndex frm rest

/-- The method `articles`: the articles of the listing of the day of `frm`, from
`frm` on. -/
def Source.articles (s : Source) (frm : Time) : Except GoError (List Article) :=
  let asURL := formArticlesURL frm
  match s.http.listing asURL with
  | .error err => .error (.New ("failed to HTTP get articles URL: " ++ err))
  | .ok res =>
    if res.StatusCode ≠ 200 then
      if res.StatusCode = 302 then .ok []
      else .error (.New "not OK status code")
    else
      match res.Body with
      | .error err => .error (.New ("failed to parse articles HTML: " ++ err))
      | .ok doc =>
        match Source.articles.each s frm doc with
        | .error findErr => .error (.New ("failed to find all articles: " ++ findErr.Error))
        | .ok as =>
          Source.articles.texts s (Source.articles.fromIndex frm (sortByPublishedAt as))

/-- The `for` loop of `Articles`, run for at most `fuel` rounds; `none` when it is
still running after them. -/
def Source.Articles.loop (s : Source) (nowDay : Time) :
    Nat → Time → List Article → Option (Except GoError (List Article))
  | 0, _, _ => none
  | fuel + 1, fromDay, as =>
    if fromDay.Equal nowDay then some (.ok as)
    else
      let fromDay1 := fromDay.Add (24 * Hour)
      match s.articles fromDay1 with
      | .error err => some (.error (.New ("failed to get articles: " ++ err.Error)))
      | .ok currAs => Source.Articles.loop s nowDay fuel fromDay1 (as ++ currAs)

/-- The method `Articles`, with `now` the value `time.Now()` returns in it and `fuel`
a bound on the rounds of its loop. -/
def Source.Articles (s : Source) (now : Time) (fuel : Nat) (frm : Time) :
    Option (Except GoError (List Article)) :=
  if frm.After now then some (.error (.New "from is after now"))
  else
    let fromDay := s.toDateWithTime frm 0 0
    let nowDay := s.toDateWithTime now 0 0
    match s.articles frm with
    | .error err => some (.error (.New ("failed to get articles: " ++ err.Error)))
    | .ok as => Source.Articles.loop s nowDay fuel fromDay as

/-- The listings the `for` loop of `Articles` requests, in order, run for at most
`fuel` rounds; `none` when it is still running after them.  Every call of `articles`
starts with one GET of the listing URL of its argument, whatever comes of it. -/
def Source.Articles.loopListings (s : Source) (nowDay : Time) :
    Nat → Time → Option (List Int)
  | 0, _ => none
  | fuel + 1, fromDay =>
    if fromDay.Equal nowDay then some []
    else
      let fromDay1 := fromDay.Add (24 * Hour)
      match s.articles fromDay1 with
      | .error _ => some [formArticlesURL fromDay1]
      | .ok _ =>
        (Source.Articles.loopListings s nowDay fuel fromDay1).map
          (fun later => formArticlesURL fromDay1 :: later)

/-- The listings `Articles` requests, in order: that of `from`, then those of its
loop; `none` when the loop is still running after `fuel` rounds. -/
def Source.Articles.listings (s : Source) (now : Time) (fuel : Nat) (frm : Time) :
    Option (List Int) :=
  if frm.After now then some []
  else
    let fromDay := s.toDateWithTime frm 0 0
    let nowDay := s.toDateWithTime now 0 0
    match s.articles frm with
    | .error _ => some [formArticlesURL frm]
    | .ok _ =>
      (Source.Articles.loopListings s nowDay fuel fromDay).map
        (fun later => formArticlesURL frm :: later)

end lentaru

/-! ## Package newsaggregator (src/news_aggregator.go) -/

namespace newsaggregator

open time entity mongodb

/-- The interface `Source`: a name, and the answer of `Articles(from)` during the
cycle at hand. -/
structure Source where
  Name : String
  Articles : Time → Except GoError (List Article)

/-- A call the orchestrator makes to a source or to the store. -/
inductive Call where
  | LatestArticle (sourceName : String)
  | Articles (sourceName : String) (frm : Time)
  | AddArticles (as : List Article)
  | RemoveOldArticles (toTime : Time)
deriving DecidableEq, Repr

/-- The type `NewsAggregator`: the configured sources, the store and the `processing`
flag, with the record of the calls made so far (oldest first). -/
structure NewsAggregator where
  sources : List Source
  store : Store
  processing : Int
  calls : List Call

/-- One tick of the scheduler: the value of `time.Now()` in it, and the configured
sources with the answers they give while it runs. -/
structure Cycle where
  now : Time
  sources : List Source

namespace NewsAggregator

/-- The store call `na.store.LatestArticle(name)`, recorded. -/
def callLatestArticle (na : NewsAggregator) (name : String) :
    Except GoError Article × NewsAggregator :=
  let r := na.store.LatestArticle name
  (r.1, { na with store := r.2, calls := na.calls ++ [.LatestArticle name] })

/-- The source call `s.Articles(from)`, recorded. -/
def callArticles (na : NewsAggregator) (s : Source) (frm : Time) :
    Except GoError (List Article) × NewsAggregator :=
  (s.Articles frm, { na with calls := na.calls ++ [.Articles s.Name frm] })

/-- The store call `na.store.AddArticles(as)`, recorded. -/
def callAddArticles (na : NewsAggregator) (as : List Article) :
    Option GoError × NewsAggregator :=
  let r := na.store.AddArticles as
  (r.1, { na with store := r.2, calls := na.calls ++ [.AddArticles as] })

/-- The store call `na.store.RemoveOldArticles(to)`, recorded. -/
def callRemoveOldArticles (na : NewsAggregator) (toTime : Time) :
    Option GoError × NewsAggregator :=
  let r := na.store.RemoveOldArticles toTime
  (r.1, { na with store := r.2, calls := na.calls ++ [.RemoveOldArticles toTime] })

/-- The frontier `from` of `loadNewArticles`, from the answer of `LatestArticle`;
`none` when the source is to be skipped. -/
def frontier (now : Time) : Except GoError Article → Option Time
  | .error err => if err = ErrNotFound then some (now.AddDate (-1)) else none
  | .ok latestArticle => some (latestArticle.PublishedAt.Add (1 * Minute))

/-- The body of the goroutine `loadNewArticles` starts for one source. -/
def loadSource (now : Time) (na : NewsAggregator) (s : Source) : NewsAggregator :=
  match na.callLatestArticle s.Name with
  | (latest, na1) =>
    match frontier now latest with
    | none => na1
    | some frm =>
      match na1.callArticles s frm with
      | (.error _, na2) => na2
      | (.ok newArticles, na2) =>
        if newArticles.length = 0 then na2
        else (na2.callAddArticles newArticles).2

/-- The method `loadNewArticles`: one goroutine per source, joined before it returns.
The goroutines are run one after the other, in the order of `na.sources`
(`NewNewsAggregator` configures one source, lenta.ru). -/
def loadNewArticles (na : NewsAggregator) (now : Time) : NewsAggregator :=
  na.sources.foldl (loadSource now) na

/-- The method `removeOldArticles`. -/
def removeOldArticles (na : NewsAggregator) (now : Time) : NewsAggregator :=
  (na.callRemoveOldArticles (now.AddDate (-7))).2

/-- The method `process`, with `now` the value `time.Now()` returns in it. -/
def process (na : NewsAggregator) (now : Time) : NewsAggregator :=
  if na.processing = 1 then na
  else
    let na1 := { na with processing := 1 }
    let na2 := na1.loadNewArticles now
    let na3 := na2.removeOldArticles now
    { na3 with processing := 0 }

/-- One synchronization cycle: `process` run at `c.now` against the sources as they
answer during the cycle. -/
def cycle (na : NewsAggregator) (c : Cycle) : NewsAggregator :=
  { na with sources := c.sources }.process c.now

/-- A sequence of synchronization cycles, one after the other. -/
def run (na : NewsAggregator) (cs : List Cycle) : NewsAggregator :=
  cs.foldl cycle na

/-- The calls made between two states of the aggregator. -/
def newCalls (before after : NewsAggregator) : List Call :=
  after.calls.drop before.calls.length

/-- The store calls that follow an answer of `Articles`: `AddArticles` with the whole
answer when it is a non-empty list, nothing otherwise. -/
def forwarded : Except GoError (List Article) → List Call
  | .error _ => []
  | .ok newArticles => if newArticles.length = 0 then [] else [.AddArticles newArticles]

end NewsAggregator

/-- Where an invocation of `process` stands: at its entry, before the
`atomic.LoadInt32` of the flag; past the check, having loaded a value other than 1
and not yet stored 1; active, between `atomic.StoreInt32(&na.processing, 1)` and its
return, while `loadNewArticles` and `removeOldArticles` run; returned. -/
inductive Stage where
  | entry
  | passed
  | active
  | returned
deriving DecidableEq, Repr

/-- The `processing` flag and the invocations of `process` that share it (`Start`
launches one per tick, each in a goroutine of its own). -/
structure Shared where
  processing : Int
  stages : List Stage
deriving DecidableEq, Repr

/-- One atomic step of invocation `i`: the load of the flag with the check of it, the
store of 1, or the return with the deferred store of 0. -/
def Shared.step (sh : Shared) (i : Nat) : Shared :=
  match sh.stages.get? i with
  | some .entry =>
    if sh.processing = 1 then { sh with stages := sh.stages.set i .returned }
    else { sh with stages := sh.stages.set i .passed }
  | some .passed => { processing := 1, stages := sh.stages.set i .active }
  | some .active => { processing := 0, stages := sh.stages.set i .returned }
  | _ => sh

/-- An interleaving: the invocations that take the next steps, in order. -/
def Shared.schedule (sh : Shared) (steps : List Nat) : Shared :=
  steps.foldl Shared.step sh

/-- The number of invocations that have passed the guard and not yet returned. -/
def Shared.inFlight (sh : Shared) : Nat :=
  (sh.stages.filter (fun st => decide (st = .passed ∨ st = .active))).length

/-- Every frontier among `calls` lies at least a minute after the publish time of every
record of `docs` that belongs to the source asked. -/
def FrontierBound (docs : List mongo.Doc) (calls : List Call) : Prop :=
  ∀ name frm, Call.Articles name frm ∈ calls →
    ∀ d ∈ docs, d.sourceName = name → d.publishedAt * 1000000 + 1 * Minute ≤ frm.ns

/-- A source answers faithfully to a publisher who gives every URL one publish time
(`pubAt`, in nanoseconds) and one source name (`owner`): each answer holds only
articles of the source itself, published at or after the frontier asked, at the time
and under the name their URL is given, and no URL twice. -/
def Source.Faithful (pubAt : String → Int) (owner : String → String) (s : Source) : Prop :=
  ∀ frm as, s.Articles frm = .ok as →
    (as.map (fun a => a.URL)).Nodup
      ∧ ∀ a ∈ as, frm.ns ≤ a.PublishedAt.ns ∧ a.SourceName = s.Name
          ∧ a.PublishedAt.ns = pubAt a.URL ∧ owner a.URL = s.Name

/-- The stored records agree with the publisher: no URL twice, and each record holds
the publish time (to the millisecond) and the source name of its URL. -/
def Agrees (pubAt : String → Int) (owner : String → String) (docs : List mongo.Doc) : Prop :=
  (docs.map (fun d => d.url)).Nodup
    ∧ ∀ d ∈ docs, d.publishedAt = pubAt d.url / 1000000 ∧ d.sourceName = owner d.url

end newsaggregator


/-! ## Concrete inputs

Dates are written with `time.ordinal`; times of day are hours and minutes. -/

namespace mongodb

open time mongo entity

/-- A keyword extractor that knows one query, `election budget`, and finds no
keyword in any other text. -/
def pollExtractor : KeywordsExtractor := fun text =>
  if text = "election budget" then .ok ["election", "budget"] else .ok []

/-- Three records: only the first and the third hold both keywords. -/
def pollDocs : List Doc :=
  [{ url := "u1", header := "h1", publishedAt := 1000, text := "t1", sourceName := "demo",
     keywords := ["budget", "tax", "election"] },
   { url := "u2", header := "h2", publishedAt := 3000, text := "t2", sourceName := "demo",
     keywords := ["election"] },
   { url := "u3", header := "h3", publishedAt := 2000, text := "t3", sourceName := "demo",
     keywords := ["election", "budget"] }]

/-- A healthy store holding `pollDocs`. -/
def pollStore : Store :=
  { articles := { docs := pollDocs, log := [], faults := [], loc := UTC },
    keywordsExtractor := pollExtractor }

/-- A keyword extractor that fails on the text `broken`. -/
def brittleExtractor : KeywordsExtractor := fun text =>
  if text = "broken" then .error (.New "failed to run mystem: exit status 1")
  else .ok [text]

/-- An article with the given text. -/
def textArticle (text : String) : Article :=
  { URL := "https://example.org/" ++ text, Header := text,
    PublishedAt := ⟨0, UTC⟩, Text := text, SourceName := "demo" }

/-- A healthy empty store with the brittle extractor. -/
def brittleStore : Store :=
  { articles := { docs := [], log := [], faults := [], loc := UTC },
    keywordsExtractor := brittleExtractor }

/-- A record published 2024-01-02T23:59 UTC. -/
def staleDoc : Doc :=
  { url := "https://example.org/stale", header := "Stale",
    publishedAt := (Date (ordinal 2024 1 2) 23 59 0 0 UTC).millis,
    text := "", sourceName := "demo", keywords := [] }

/-- A healthy store holding `staleDoc` only. -/
def staleStore : Store :=
  { articles := { docs := [staleDoc], log := [], faults := [], loc := UTC },
    keywordsExtractor := fun _ => .ok [] }

/-- The retention cutoff of a cycle run at 2024-01-10T00:00 UTC: seven days earlier. -/
def staleCutoff : Time := (Date (ordinal 2024 1 10) 0 0 0 0 UTC).AddDate (-7)

end mongodb

namespace lentaru

open time entity

/-- A site whose listing of 2024-01-10 holds one article, published at 00:30 Moscow
time; the listings of the other days are empty. -/
def nightSite : Web :=
  { listing := fun ymd =>
      if ymd = ordinal 2024 1 10 then
        .ok ⟨200, .ok [⟨some "/news/2024/01/10/budget/", " 00:30 ", "Budget"⟩]⟩
      else .ok ⟨200, .ok []⟩
    article := fun _ => .ok ⟨200, .ok ["Text."]⟩ }

/-- The adapter in front of `nightSite`. -/
def nightSource : Source := { moscow := Moscow, http := nightSite, unescape := id }

/-- The frontier after the article of 00:30 Moscow time has been stored and read back
in UTC: 2024-01-09T21:31 UTC, one minute after it. -/
def nightFrom : Time := (Date (ordinal 2024 1 9) 21 30 0 0 UTC).Add (1 * Minute)

/-- The current time 2024-01-10T01:00, in Moscow. -/
def nightNow : Time := Date (ordinal 2024 1 10) 1 0 0 0 Moscow

/-- The current time 2024-01-10T00:05, in UTC (03:05 in Moscow). -/
def nightNowUTC : Time := Date (ordinal 2024 1 10) 0 5 0 0 UTC

/-- The current time 2024-01-09T22:00, in UTC (2024-01-10T01:00 in Moscow). -/
def lateNowUTC : Time := Date (ordinal 2024 1 9) 22 0 0 0 UTC

/-- A site whose listings all answer, with no article in them. -/
def quietSite : Web :=
  { listing := fun _ => .ok ⟨200, .ok []⟩
    article := fun _ => .ok ⟨200, .ok []⟩ }

/-- The adapter in front of `quietSite`. -/
def quietSource : Source := { moscow := Moscow, http := quietSite, unescape := id }

/-- The frontier 2024-01-10T00:30, in UTC. -/
def aheadFrom : Time := Date (ordinal 2024 1 10) 0 30 0 0 UTC

/-- The current time 2024-01-09T20:00 in a location five hours behind UTC, which is
2024-01-10T01:00 UTC. -/
def behindNow : Time := Date (ordinal 2024 1 9) 20 0 0 0 ⟨-5 * 3600, []⟩

/-- The article of `nightSite`, as the adapter returns it. -/
def nightArticle : Article :=
  { URL := "https://lenta.ru/news/2024/01/10/budget/", Header := "Budget",
    PublishedAt := Date (ordinal 2024 1 10) 0 30 0 0 Moscow, Text := "Text.",
    SourceName := "lenta.ru" }

end lentaru

namespace newsaggregator

open time entity mongodb

/-- The article of source demo published 2024-01-09T10:00 UTC. -/
def demoTen : Article :=
  { URL := "https://example.org/ten", Header := "Ten",
    PublishedAt := Date (ordinal 2024 1 9) 10 0 0 0 UTC, Text := "ten", SourceName := "demo" }

/-- The article of source demo published 2024-01-09T11:00 UTC. -/
def demoEleven : Article :=
  { URL := "https://example.org/eleven", Header := "Eleven",
    PublishedAt := Date (ordinal 2024 1 9) 11 0 0 0 UTC, Text := "eleven",
    SourceName := "demo" }

/-- A keyword extractor that finds no keyword in any text. -/
def noKeywords : KeywordsExtractor := fun _ => .ok []

/-- A healthy store that holds the two articles of source demo. -/
def demoStore : Store :=
  { articles :=
      { docs := [encode ⟨demoTen, []⟩, encode ⟨demoEleven, []⟩], log := [], faults := [],
        loc := UTC },
    keywordsExtractor := noKeywords }

/-- A source demo that serves the article of 11:00 again, whatever the frontier. -/
def demoReserving : Source := { Name := "demo", Articles := fun _ => .ok [demoEleven] }

/-- The article of 11:00 after the publisher has moved it to 11:05: same URL. -/
def demoMoved : Article :=
  { demoEleven with PublishedAt := Date (ordinal 2024 1 9) 11 5 0 0 UTC }

/-- A source demo that serves, from the frontier on, what `site` holds. -/
def demoServing (site : List Article) : Source :=
  { Name := "demo"
    Articles := fun frm => .ok (site.filter (fun a => !a.PublishedAt.Before frm)) }

/-- A source demo that serves its two articles from the frontier on. -/
def demoHonest : Source := demoServing [demoTen, demoEleven]

/-- The publisher of the demo articles: the publish time it gives each URL. -/
def demoPubAt (url : String) : Int :=
  if url = demoTen.URL then demoTen.PublishedAt.ns else demoEleven.PublishedAt.ns

/-- The publisher of the demo articles: every URL belongs to source demo. -/
def demoOwner (_ : String) : String := "demo"

/-- The cycle time 2024-01-10T00:01 UTC. -/
def demoNow : Time := Date (ordinal 2024 1 10) 0 1 0 0 UTC

/-- A healthy store that holds nothing yet. -/
def emptyStore : Store :=
  { articles := { docs := [], log := [], faults := [], loc := UTC },
    keywordsExtractor := noKeywords }

/-- An idle aggregator over `emptyStore` with the given sources. -/
def freshAggregator (sources : List Source) : NewsAggregator :=
  { sources := sources, store := emptyStore, processing := 0, calls := [] }

/-- The location America/New_York around 2024: five hours behind UTC, four from
2024-03-10T07:00 UTC (daylight saving time) to 2024-11-03T06:00 UTC. -/
def NewYork : Location :=
  ⟨-5 * 3600,
   [(ordinal 2024 3 10 * 86400 + 7 * 3600, -4 * 3600),
    (ordinal 2024 11 3 * 86400 + 6 * 3600, -5 * 3600)]⟩

/-- The cycle time 2024-03-10T12:00 in New York (16:00 UTC), ten hours after the
clocks went forward. -/
def springNow : Time := Date (ordinal 2024 3 10) 12 0 0 0 NewYork

/-- The cycle time 2024-01-10T00:02 UTC, a minute after `demoNow`. -/
def demoLater : Time := demoNow.Add (1 * Minute)

/-- The store `demoStore` behind a connection that fails at the next round trip. -/
def demoUnreachable : Store :=
  { demoStore with
    articles := { demoStore.articles with faults := [some ⟨"connection reset by peer", 0⟩] } }

/-- An idle aggregator over `demoStore` with the given sources. -/
def demoAggregator (sources : List Source) : NewsAggregator :=
  { sources := sources, store := demoStore, processing := 0, calls := [] }

end newsaggregator
/-! ## Properties -/

namespace time

/-- In a location without transitions one period covers every instant. -/
theorem Location.lookup_fixed (l : Location) (h : l.transitions = []) (sec : Int) :
    l.lookup sec = ⟨l.offset, none, none⟩ := by
  simp [Location.lookup, h, Location.lookupFrom]

/-- In a location without transitions the wall clock is the instant moved by the
offset. -/
theorem Time.wall_fixed (t : Time) (h : t.loc.transitions = []) :
    t.wall = t.ns + t.loc.offset * Second := by
  simp only [Time.wall, Location.lookup_fixed t.loc h]

/-- In a location without transitions `Date` moves the wall clock asked for by the
offset. -/
theorem Date_fixed (ymd hour min sec nsec : Int) (loc : Location)
    (h : loc.transitions = []) :
    Date ymd hour min sec nsec loc =
      ⟨ymd * (24 * Hour) + hour * Hour + min * Minute + sec * Second + nsec
        - loc.offset * Second, loc⟩ := by
  simp only [Date, Location.lookup_fixed loc h, Period.covers]
  split <;> simp

/-- In a location without transitions, moving the day of a time by `days` moves its
instant by `days` times 24 hours and keeps its location. -/
theorem Time.AddDate_eq (t : Time) (days : Int) (h : t.loc.transitions = []) :
    t.AddDate days = ⟨t.ns + days * (24 * Hour), t.loc⟩ := by
  simp only [Time.AddDate, Date_fixed _ _ _ _ _ t.loc h, Time.Clock, Time.YMD, Time.Nanosecond,
    Time.wall_fixed t h, Hour, Minute, Second, time.Nanosecond, Time.mk.injEq, and_true]
  omega

end time

namespace mongo

/-- An aggregation leaves the stored records alone. -/
theorem Collection.Aggregate_docs (c : Collection) (filter : Filter) (limit : Nat) :
    (c.Aggregate filter limit).2.docs = c.docs := by
  unfold Collection.Aggregate
  cases c.nextFault with
  | some f => rfl
  | none =>
    simp only []
    cases selectDocs filter c.docs <;> rfl

end mongo

namespace mongodb

open mongo

/-- The method `LatestArticle` leaves the stored records alone. -/
theorem Store.LatestArticle_docs (s : Store) (sourceName : String) :
    (s.LatestArticle sourceName).2.articles.docs = s.articles.docs := by
  have h := Collection.Aggregate_docs s.articles [("sourceName", .val (.str sourceName))] 1
  unfold Store.LatestArticle
  generalize s.articles.Aggregate [("sourceName", .val (.str sourceName))] 1 = r at h
  obtain ⟨res, c⟩ := r
  cases res with
  | error e => exact h
  | ok ds => cases ds <;> exact h

end mongodb

namespace newsaggregator

open time entity mongodb NewsAggregator

/-- The calls one goroutine of `loadNewArticles` adds to the record. -/
theorem loadSource_calls (na : NewsAggregator) (s : Source) (now : Time) :
    (loadSource now na s).calls = na.calls ++ .LatestArticle s.Name ::
      (match NewsAggregator.frontier now (na.store.LatestArticle s.Name).1 with
       | none => []
       | some frm => .Articles s.Name frm :: forwarded (s.Articles frm)) := by
  unfold loadSource callLatestArticle
  simp only []
  cases NewsAggregator.frontier now (na.store.LatestArticle s.Name).1 with
  | none => simp
  | some frm =>
    simp only [callArticles, forwarded]
    cases s.Articles frm with
    | error e => simp
    | ok newArticles =>
      simp only []
      split
      · simp
      · simp [callAddArticles]

/-- Only `AddArticles` calls follow an answer of `Articles`. -/
theorem forwarded_mem (r : Except GoError (List Article)) (c : Call)
    (h : c ∈ forwarded r) : ∃ as, c = Call.AddArticles as := by
  cases r with
  | error e => simp [forwarded] at h
  | ok newArticles =>
    simp only [forwarded] at h
    split at h
    · simp at h
    · exact ⟨newArticles, by simpa using h⟩

/-- C1. The frontier `loadNewArticles` passes to a source's `Articles`: the publish
time of the latest article plus one minute when `LatestArticle` returns an article;
`now` minus one day when it returns `ErrNotFound`, which is `now.AddDate(0, 0, -1)`:
the time `Date` builds in the location of `now` from the calendar date of `now` moved
back by one day and the clock of `now` (24 hours before `now` in a location without
transitions; in a location with daylight saving time it can be 23 or 25 hours);
on any other error the source is skipped: the only call made for it is
`LatestArticle`, neither `Articles` nor `AddArticles` follows and the stored records
are as before.  In the first two cases `Articles` is called once, with that frontier,
and only an `AddArticles` call can follow it. -/
theorem loadSource_frontier (na : NewsAggregator) (s : Source) (now : Time) :
    match (na.store.LatestArticle s.Name).1 with
    | .ok latestArticle =>
      ∃ rest, (loadSource now na s).calls = na.calls ++
          [.LatestArticle s.Name,
           .Articles s.Name (latestArticle.PublishedAt.Add (1 * Minute))] ++ rest
        ∧ ∀ c ∈ rest, ∃ as, c = Call.AddArticles as
    | .error err =>
      if err = ErrNotFound then
        ∃ rest, (loadSource now na s).calls = na.calls ++
            [.LatestArticle s.Name, .Articles s.Name (now.AddDate (-1))] ++ rest
          ∧ (∀ c ∈ rest, ∃ as, c = Call.AddArticles as)
          ∧ now.AddDate (-1) =
              Date (now.YMD - 1) now.Clock.1 now.Clock.2.1 now.Clock.2.2 now.Nanosecond now.loc
          ∧ (now.loc.transitions = [] → now.AddDate (-1) = ⟨now.ns - 24 * Hour, now.loc⟩)
      else
        (loadSource now na s).calls = na.calls ++ [.LatestArticle s.Name]
          ∧ (loadSource now na s).store.articles.docs = na.store.articles.docs := by
  have hc := loadSource_calls na s now
  cases hr : (na.store.LatestArticle s.Name).1 with
  | ok latestArticle =>
    simp only [hr, NewsAggregator.frontier] at hc
    refine ⟨forwarded (s.Articles (latestArticle.PublishedAt.Add (1 * Minute))), ?_,
      fun c hcm => forwarded_mem _ c hcm⟩
    rw [hc]; simp
  | error err =>
    simp only [hr, NewsAggregator.frontier] at hc
    by_cases he : err = ErrNotFound
    · simp only [he, if_true] at hc ⊢
      refine ⟨forwarded (s.Articles (now.AddDate (-1))), ?_,
        fun c hcm => forwarded_mem _ c hcm, rfl, ?_⟩
      · rw [hc]; simp
      · intro hfix
        rw [Time.AddDate_eq now (-1) hfix]; simp only [Time.mk.injEq, and_true]; omega
    · simp only [he, if_false] at hc ⊢
      refine ⟨hc, ?_⟩
      unfold loadSource callLatestArticle
      simp only [hr, NewsAggregator.frontier, he, if_false]
      exact Store.LatestArticle_docs na.store s.Name

end newsaggregator

namespace mongo

/-- The key `le` is not a query operator. -/
theorem isOperator_le : isOperator "le" = false := by decide

/-- No stored record matches the filter `publishedAt: (le: v)`: the server reads the
embedded document as a literal, and a publish time is a datetime. -/
theorem matchDoc_le (d : Doc) (v : Value) :
    matchDoc d [("publishedAt", .sub [("le", v)])] = .ok false := by
  simp [matchDoc, matchCond, isOperator_le]

/-- Deleting by the filter `publishedAt: (le: v)` keeps every record. -/
theorem rejectDocs_le (v : Value) (ds : List Doc) :
    rejectDocs [("publishedAt", .sub [("le", v)])] ds = .ok ds := by
  induction ds with
  | nil => rfl
  | cons d ds ih => simp [rejectDocs, matchDoc_le, ih]

end mongo

namespace mongodb

open mongo time

/-- Whatever the cutoff and whatever the driver reports, `RemoveOldArticles` leaves
the stored records as they were. -/
theorem Store.RemoveOldArticles_docs (s : Store) (toTime : Time) :
    (s.RemoveOldArticles toTime).2.articles.docs = s.articles.docs := by
  unfold Store.RemoveOldArticles Collection.DeleteMany
  cases s.articles.nextFault with
  | some f => rfl
  | none => simp [rejectDocs_le, Collection.after]

end mongodb

namespace mongodb

open time mongo

/-- C2 (the code departs from the claim). A record published 2024-01-02T23:59 UTC is
strictly before the cutoff 2024-01-03T00:00 UTC, and `RemoveOldArticles` with that
cutoff reports success and leaves it in the store: the filter it sends names the
operator `le`, which the server reads as a literal embedded document. -/
theorem RemoveOldArticles_keeps_stale :
    staleCutoff = Date (ordinal 2024 1 3) 0 0 0 0 UTC
      ∧ staleDoc.publishedAt < staleCutoff.millis
      ∧ (staleStore.RemoveOldArticles staleCutoff).1 = none
      ∧ (staleStore.RemoveOldArticles staleCutoff).2.articles.docs = [staleDoc]
      ∧ (staleStore.RemoveOldArticles staleCutoff).2.articles.log =
          [.deleteMany [("publishedAt", .sub [("le", .date staleCutoff.millis)])]] := by
  decide

end mongodb

namespace lentaru

open time entity

/-- C3 (the code departs from the claim). With `from` = 2024-01-09T21:31 expressed in
UTC and the current time 2024-01-10T01:00 expressed in Moscow time, `from` is not
after the current time, `Articles` succeeds, its loop ends in its second round, and it
returns the article published at 00:30 Moscow time, which is 2024-01-09T21:30 UTC:
one minute before `from`.  The same happens when the current time is expressed in
UTC too, at 2024-01-10T00:05 UTC. -/
theorem Articles_returns_before_from :
    nightFrom.After nightNow = false
      ∧ nightSource.Articles nightNow 2 nightFrom = some (.ok [nightArticle])
      ∧ nightSource.Articles nightNow 10 nightFrom = some (.ok [nightArticle])
      ∧ nightFrom.After nightNowUTC = false
      ∧ nightSource.Articles nightNowUTC 2 nightFrom = some (.ok [nightArticle])
      ∧ nightArticle.PublishedAt.Before nightFrom = true
      ∧ nightArticle.PublishedAt.ns + 1 * Minute = nightFrom.ns := by
  decide

end lentaru

namespace newsaggregator

open time entity mongodb NewsAggregator

/-- C1 at source demo, cycle time 2024-01-10T00:01 UTC.  Over the store that holds the
articles of 10:00 and 11:00 the frontier is 11:01; over the empty store it is
2024-01-09T00:01, a day before the cycle time; when the round trip of
`LatestArticle` fails, that call is the only one made and the records stay.  At the
cycle time 2024-03-10T12:00 in New York, the day the clocks went forward, the frontier
over the empty store is 2024-03-09T12:00 in New York, 23 hours before the cycle time. -/
theorem loadSource_frontier_witness :
    (loadSource springNow (freshAggregator [demoHonest]) demoHonest).calls =
        [.LatestArticle "demo", .Articles "demo" (Date (ordinal 2024 3 9) 12 0 0 0 NewYork)]
      ∧ springNow.ns = 1710086400 * Second
      ∧ (Date (ordinal 2024 3 9) 12 0 0 0 NewYork).ns = 1710003600 * Second
      ∧ (Date (ordinal 2024 3 9) 12 0 0 0 NewYork).ns = springNow.ns - 23 * Hour
      ∧ (loadSource demoNow (demoAggregator [demoHonest]) demoHonest).calls =
        [.LatestArticle "demo", .Articles "demo" (Date (ordinal 2024 1 9) 11 1 0 0 UTC)]
      ∧ (loadSource demoNow (freshAggregator [demoHonest]) demoHonest).calls =
        [.LatestArticle "demo", .Articles "demo" (Date (ordinal 2024 1 9) 0 1 0 0 UTC),
         .AddArticles [demoTen, demoEleven]]
      ∧ (demoUnreachable.LatestArticle "demo").1 =
          .error (.New "failed to aggregate: connection reset by peer")
      ∧ (loadSource demoNow { demoAggregator [demoHonest] with store := demoUnreachable }
          demoHonest).calls = [.LatestArticle "demo"]
      ∧ (loadSource demoNow { demoAggregator [demoHonest] with store := demoUnreachable }
          demoHonest).store.articles.docs = demoStore.articles.docs := by
  decide

/-- C4, as stated, fails. With the articles of 10:00 and 11:00 stored for source demo
the frontier is 11:01; the source answers with the article of 11:00, which is before
the frontier; `loadNewArticles` passes it to `AddArticles`, and after the cycle the
store holds three records, the article of 11:00 twice. -/
theorem process_stores_item_before_frontier :
    ((demoAggregator [demoReserving]).process demoNow).calls =
        [.LatestArticle "demo",
         .Articles "demo" (Date (ordinal 2024 1 9) 11 1 0 0 UTC),
         .AddArticles [demoEleven],
         .RemoveOldArticles (Date (ordinal 2024 1 3) 0 1 0 0 UTC)]
      ∧ demoEleven.PublishedAt.Before (Date (ordinal 2024 1 9) 11 1 0 0 UTC) = true
      ∧ ((demoAggregator [demoReserving]).process demoNow).store.articles.docs =
          [encode ⟨demoTen, []⟩, encode ⟨demoEleven, []⟩, encode ⟨demoEleven, []⟩] := by
  decide

/-- The call `AddArticles as` follows an answer of `Articles` exactly when the answer
is the non-empty list `as`. -/
theorem forwarded_mem_iff (r : Except GoError (List Article)) (as : List Article) :
    Call.AddArticles as ∈ forwarded r ↔ r = .ok as ∧ as ≠ [] := by
  cases r with
  | error e => simp [forwarded]
  | ok newArticles =>
    simp only [forwarded]
    split
    · rename_i hlen
      have hnil : newArticles = [] := List.length_eq_zero.mp hlen
      subst hnil
      simp only [List.not_mem_nil, Except.ok.injEq, ne_eq, false_iff, not_and, not_not]
      intro h
      exact h.symm
    · rename_i hlen
      have hne : newArticles ≠ [] := fun h => hlen (by rw [h]; rfl)
      simp only [List.mem_singleton, Call.AddArticles.injEq, Except.ok.injEq, ne_eq]
      constructor
      · intro h; subst h; exact ⟨rfl, hne⟩
      · intro h; exact h.1.symm

/-- No call of `Articles` follows an answer of `Articles`. -/
theorem forwarded_no_Articles (r : Except GoError (List Article)) (name : String)
    (frm : Time) : Call.Articles name frm ∉ forwarded r := by
  intro h
  obtain ⟨as, has⟩ := forwarded_mem r _ h
  cases has

/-- C4, amended. `loadNewArticles` has no filter of its own.  For every source, in
every state, the goroutine of the source calls `AddArticles` exactly when the call of
the source's `Articles` with the frontier `from` answers with a non-empty list, and
the argument is that whole answer, whatever the publish times in it.  So only
articles published at or after `from` are passed to `AddArticles` exactly when the
answer of the source holds no article before `from`. -/
theorem loadSource_forwards_answer (na : NewsAggregator) (s : Source) (now : Time) :
    ∃ new, (loadSource now na s).calls = na.calls ++ new
      ∧ (∀ as, Call.AddArticles as ∈ new →
          ∃ frm, Call.Articles s.Name frm ∈ new ∧ s.Articles frm = .ok as ∧ as ≠ [])
      ∧ (∀ frm as, Call.Articles s.Name frm ∈ new → s.Articles frm = .ok as → as ≠ [] →
          Call.AddArticles as ∈ new)
      ∧ (∀ frm as, Call.Articles s.Name frm ∈ new → s.Articles frm = .ok as →
          ((∀ a ∈ as, a.PublishedAt.Before frm = false) ↔
            ∀ bs, Call.AddArticles bs ∈ new → ∀ a ∈ bs, a.PublishedAt.Before frm = false)) := by
  refine ⟨_, loadSource_calls na s now, ?_⟩
  cases hf : NewsAggregator.frontier now (na.store.LatestArticle s.Name).1 with
  | none =>
    refine ⟨?_, ?_, ?_⟩
    · intro as h; simp at h
    · intro frm as h; simp at h
    · intro frm as h; simp at h
  | some f =>
    have hadd : ∀ as, Call.AddArticles as ∈
        Call.LatestArticle s.Name :: Call.Articles s.Name f :: forwarded (s.Articles f) ↔
          s.Articles f = .ok as ∧ as ≠ [] := by
      intro as
      simp only [List.mem_cons, reduceCtorEq, false_or]
      exact forwarded_mem_iff _ as
    have hart : ∀ frm, Call.Articles s.Name frm ∈
        Call.LatestArticle s.Name :: Call.Articles s.Name f :: forwarded (s.Articles f) →
          frm = f := by
      intro frm h
      simp only [List.mem_cons, reduceCtorEq, false_or, Call.Articles.injEq, true_and] at h
      rcases h with h | h
      · exact h
      · exact absurd h (forwarded_no_Articles _ _ _)
    refine ⟨?_, ?_, ?_⟩
    · intro as h
      obtain ⟨hr, hne⟩ := (hadd as).mp h
      exact ⟨f, by simp, hr, hne⟩
    · intro frm as h hr hne
      have := hart frm h
      subst this
      exact (hadd as).mpr ⟨hr, hne⟩
    · intro frm as h hr
      have := hart frm h
      subst this
      constructor
      · intro hall bs hbs a ha
        obtain ⟨hr2, _⟩ := (hadd bs).mp hbs
        rw [hr] at hr2
        cases hr2
        exact hall a ha
      · intro hpass a ha
        have hne : as ≠ [] := fun h0 => by rw [h0] at ha; simp at ha
        exact hpass as ((hadd as).mpr ⟨hr, hne⟩) a ha

/-- The amended C4 at two runs.  A source that serves the articles of 10:00 and 11:00
from the frontier on, first run over an empty store: both articles are passed to
`AddArticles`.  A source that serves the article of 11:00 again, over the store that
holds it: the frontier is 11:01 and the article is passed to `AddArticles` all the
same. -/
theorem loadSource_forwards_answer_witness :
    (loadSource demoNow (freshAggregator [demoHonest]) demoHonest).calls =
        [.LatestArticle "demo", .Articles "demo" (Date (ordinal 2024 1 9) 0 1 0 0 UTC),
         .AddArticles [demoTen, demoEleven]]
      ∧ (loadSource demoNow (demoAggregator [demoReserving]) demoReserving).calls =
        [.LatestArticle "demo", .Articles "demo" (Date (ordinal 2024 1 9) 11 1 0 0 UTC),
         .AddArticles [demoEleven]]
      ∧ ∃ new, (loadSource demoNow (demoAggregator [demoReserving]) demoReserving).calls =
            (demoAggregator [demoReserving]).calls ++ new
          ∧ (∀ as, Call.AddArticles as ∈ new →
              ∃ frm, Call.Articles demoReserving.Name frm ∈ new
                ∧ demoReserving.Articles frm = .ok as ∧ as ≠ [])
          ∧ (∀ frm as, Call.Articles demoReserving.Name frm ∈ new →
              demoReserving.Articles frm = .ok as → as ≠ [] → Call.AddArticles as ∈ new)
          ∧ (∀ frm as, Call.Articles demoReserving.Name frm ∈ new →
              demoReserving.Articles frm = .ok as →
              ((∀ a ∈ as, a.PublishedAt.Before frm = false) ↔
                ∀ bs, Call.AddArticles bs ∈ new →
                  ∀ a ∈ bs, a.PublishedAt.Before frm = false)) :=
  ⟨by decide, by decide,
   loadSource_forwards_answer (demoAggregator [demoReserving]) demoReserving demoNow⟩

end newsaggregator

/-! ### The frontier over a sequence of cycles -/

namespace mongo

/-- The filter `sourceName: name` selects the records of that source. -/
theorem selectDocs_sourceName (name : String) (ds : List Doc) :
    selectDocs [("sourceName", .val (.str name))] ds =
      .ok (ds.filter (fun d => decide (d.sourceName = name))) := by
  induction ds with
  | nil => rfl
  | cons d ds ih =>
    have hm : matchDoc d [("sourceName", .val (.str name))] =
        .ok (decide (d.sourceName = name)) := by
      simp [matchDoc, matchCond, Doc.field, valueEq]
    simp only [selectDocs, hm, ih, List.filter_cons]

/-- The sort stage keeps the records. -/
theorem Collection.mem_sortDesc (ds : List Doc) (d : Doc) :
    d ∈ Collection.sortDesc ds ↔ d ∈ ds :=
  (List.perm_insertionSort _ ds).mem_iff

/-- The sort stage puts the records newest first. -/
theorem Collection.sorted_sortDesc (ds : List Doc) :
    (Collection.sortDesc ds).Pairwise (fun a b => b.publishedAt ≤ a.publishedAt) := by
  haveI : IsTotal Doc (fun a b => b.publishedAt ≤ a.publishedAt) :=
    ⟨fun a b => le_total b.publishedAt a.publishedAt⟩
  haveI : IsTrans Doc (fun a b => b.publishedAt ≤ a.publishedAt) :=
    ⟨fun _ _ _ hab hbc => le_trans hbc hab⟩
  exact List.sorted_insertionSort _ ds

/-- The first record after the sort stage is a newest one. -/
theorem Collection.head_sortDesc (ds : List Doc) (d0 : Doc) (rest : List Doc)
    (h : Collection.sortDesc ds = d0 :: rest) (d : Doc) (hd : d ∈ ds) :
    d.publishedAt ≤ d0.publishedAt := by
  have hs := Collection.sorted_sortDesc ds
  rw [h] at hs
  have hm : d ∈ d0 :: rest := by rw [← h]; exact (Collection.mem_sortDesc ds d).mpr hd
  rcases List.mem_cons.mp hm with rfl | hr
  · exact le_refl _
  · exact (List.pairwise_cons.mp hs).1 d hr

end mongo

namespace mongodb

open mongo time

/-- What `LatestArticle` answers, against the stored records: an article it returns
is no older than any record of the source; `ErrNotFound` means the source has no
record. -/
theorem Store.LatestArticle_spec (s : Store) (name : String) :
    match (s.LatestArticle name).1 with
    | .ok a => ∀ d ∈ s.articles.docs, d.sourceName = name →
        d.publishedAt * 1000000 ≤ a.PublishedAt.ns
    | .error err => err = ErrNotFound → ∀ d ∈ s.articles.docs, d.sourceName ≠ name := by
  unfold Store.LatestArticle Collection.Aggregate
  cases s.articles.nextFault with
  | some f => simp [ErrNotFound]
  | none =>
    simp only [selectDocs_sourceName]
    cases hs : (Collection.sortDesc
        (s.articles.docs.filter (fun d => decide (d.sourceName = name)))) with
    | nil =>
      simp only [List.take_nil]
      intro _ d hd hn
      have : d ∈ Collection.sortDesc
          (s.articles.docs.filter (fun d => decide (d.sourceName = name))) :=
        (Collection.mem_sortDesc _ d).mpr (List.mem_filter.mpr ⟨hd, by simpa using hn⟩)
      rw [hs] at this
      simp at this
    | cons d0 rest =>
      simp only [List.take_succ_cons, List.take_zero, decode]
      intro d hd hn
      have := Collection.head_sortDesc _ d0 rest hs d
        (List.mem_filter.mpr ⟨hd, by simpa using hn⟩)
      omega

end mongodb

namespace mongodb

open mongo time entity

/-- The insert models of `AddArticles` carry the articles of the batch, in order. -/
theorem AddArticles.writes_articles (ke : KeywordsExtractor) (as : List Article)
    (ws : List articleWithKeywords) (h : AddArticles.writes ke as = .ok ws) :
    ws.map (fun w => w.Article) = as := by
  induction as generalizing ws with
  | nil =>
    simp only [AddArticles.writes, Except.ok.injEq] at h
    subst h; rfl
  | cons a rest ih =>
    simp only [AddArticles.writes] at h
    cases hk : ke a.Text with
    | error e => simp [hk] at h
    | ok kw =>
      simp only [hk] at h
      cases hw : AddArticles.writes ke rest with
      | error e => simp [hw] at h
      | ok ws1 =>
        simp only [hw, Except.ok.injEq] at h
        subst h
        simp [ih ws1 hw]

/-- A bulk write appends leading inserts of the batch to the stored records. -/
theorem Collection.BulkWrite_docs (c : Collection) (writes : List Doc) :
    ∃ n, (c.BulkWrite writes).2.docs = c.docs ++ writes.take n := by
  unfold Collection.BulkWrite
  split
  · exact ⟨0, by simp⟩
  · cases c.nextFault with
    | some f => exact ⟨f.applied, rfl⟩
    | none => exact ⟨writes.length, by simp [Collection.after]⟩

/-- The collection `AddArticles` leaves: untouched when an extraction fails, else the
collection after the one bulk write of all insert models. -/
theorem Store.AddArticles_articles (s : Store) (as : List Article) :
    (s.AddArticles as).2.articles =
      match AddArticles.writes s.keywordsExtractor as with
      | .error _ => s.articles
      | .ok ws => (s.articles.BulkWrite (ws.map encode)).2 := by
  unfold Store.AddArticles
  cases AddArticles.writes s.keywordsExtractor as with
  | error e => rfl
  | ok ws =>
    simp only []
    generalize s.articles.BulkWrite (ws.map encode) = r
    obtain ⟨res, c⟩ := r
    cases res <;> rfl

/-- What `AddArticles` does to the stored records: it appends the images of leading
articles of the batch, each with some keyword set, and touches nothing else. -/
theorem Store.AddArticles_docs (s : Store) (as : List Article) :
    ∃ added : List articleWithKeywords,
      (s.AddArticles as).2.articles.docs = s.articles.docs ++ added.map encode
        ∧ added.map (fun w => w.Article) <+: as := by
  rw [Store.AddArticles_articles]
  cases hw : AddArticles.writes s.keywordsExtractor as with
  | error e => exact ⟨[], by simp, List.nil_prefix⟩
  | ok ws =>
    have hws := AddArticles.writes_articles _ _ _ hw
    obtain ⟨n, hn⟩ := Collection.BulkWrite_docs s.articles (ws.map encode)
    refine ⟨ws.take n, by simp only [hn, List.map_take], ?_⟩
    rw [List.map_take, hws]
    exact List.take_prefix _ _

/-- The method `AddArticles` keeps the records that were stored. -/
theorem Store.AddArticles_docs_subset (s : Store) (as : List Article) :
    s.articles.docs ⊆ (s.AddArticles as).2.articles.docs := by
  obtain ⟨added, h, _⟩ := Store.AddArticles_docs s as
  rw [h]
  exact List.subset_append_left _ _

end mongodb

namespace newsaggregator

open time entity mongo mongodb NewsAggregator

/-- The store one goroutine of `loadNewArticles` leaves. -/
theorem loadSource_store (na : NewsAggregator) (s : Source) (now : Time) :
    (loadSource now na s).store =
      match NewsAggregator.frontier now (na.store.LatestArticle s.Name).1 with
      | none => (na.store.LatestArticle s.Name).2
      | some frm =>
        match s.Articles frm with
        | .error _ => (na.store.LatestArticle s.Name).2
        | .ok newArticles =>
          if newArticles.length = 0 then (na.store.LatestArticle s.Name).2
          else ((na.store.LatestArticle s.Name).2.AddArticles newArticles).2 := by
  unfold loadSource callLatestArticle
  simp only []
  cases NewsAggregator.frontier now (na.store.LatestArticle s.Name).1 with
  | none => rfl
  | some frm =>
    simp only [callArticles]
    cases s.Articles frm with
    | error e => rfl
    | ok newArticles =>
      simp only []
      split <;> rfl

/-- One goroutine of `loadNewArticles` keeps the records that were stored. -/
theorem loadSource_docs_subset (na : NewsAggregator) (s : Source) (now : Time) :
    na.store.articles.docs ⊆ (loadSource now na s).store.articles.docs := by
  rw [loadSource_store]
  have h0 := Store.LatestArticle_docs na.store s.Name
  have h1 : ∀ as, na.store.articles.docs ⊆
      (((na.store.LatestArticle s.Name).2.AddArticles as).2).articles.docs := by
    intro as
    have := Store.AddArticles_docs_subset (na.store.LatestArticle s.Name).2 as
    rwa [h0] at this
  cases NewsAggregator.frontier now (na.store.LatestArticle s.Name).1 with
  | none => simp only [h0]; exact List.Subset.refl _
  | some frm =>
    simp only []
    cases s.Articles frm with
    | error e => simp only [h0]; exact List.Subset.refl _
    | ok newArticles =>
      simp only []
      split
      · simp only [h0]; exact List.Subset.refl _
      · exact h1 newArticles

/-- The frontier one goroutine of `loadNewArticles` asks its source for lies at least a
minute after every record stored for the source. -/
theorem loadSource_bound (na : NewsAggregator) (s : Source) (now : Time) :
    ∃ new, (loadSource now na s).calls = na.calls ++ new
      ∧ FrontierBound na.store.articles.docs new := by
  refine ⟨_, loadSource_calls na s now, ?_⟩
  intro name frm hmem d hd hn
  have hspec := Store.LatestArticle_spec na.store s.Name
  cases hl : (na.store.LatestArticle s.Name).1 with
  | ok a =>
    simp only [hl, NewsAggregator.frontier, List.mem_cons, reduceCtorEq, false_or,
      Call.Articles.injEq] at hmem hspec
    rcases hmem with ⟨rfl, rfl⟩ | hf
    · have := hspec d hd hn
      simp only [Time.Add]
      omega
    · obtain ⟨as, has⟩ := forwarded_mem _ _ hf
      cases has
  | error err =>
    simp only [hl, NewsAggregator.frontier] at hmem hspec
    by_cases he : err = ErrNotFound
    · simp only [he, if_true, List.mem_cons, reduceCtorEq, false_or,
        Call.Articles.injEq] at hmem
      rcases hmem with ⟨rfl, rfl⟩ | hf
      · exact absurd hn (hspec he d hd)
      · obtain ⟨as, has⟩ := forwarded_mem _ _ hf
        cases has
    · simp [he] at hmem

end newsaggregator

namespace newsaggregator

open time entity mongo mongodb NewsAggregator

/-- A frontier bound holds for fewer records. -/
theorem FrontierBound.mono {docs docs1 : List Doc} {calls : List Call}
    (hsub : docs ⊆ docs1) (h : FrontierBound docs1 calls) : FrontierBound docs calls :=
  fun name frm hc d hd hn => h name frm hc d (hsub hd) hn

/-- A frontier bound holds for two runs of calls when it holds for each. -/
theorem FrontierBound.append {docs : List Doc} {xs ys : List Call}
    (hx : FrontierBound docs xs) (hy : FrontierBound docs ys) :
    FrontierBound docs (xs ++ ys) := by
  intro name frm hc d hd hn
  rcases List.mem_append.mp hc with h | h
  · exact hx name frm h d hd hn
  · exact hy name frm h d hd hn

/-- The goroutines of `loadNewArticles`, one after the other: records are kept, and
every frontier asked lies a minute after the records stored before. -/
theorem foldl_loadSource_spec (now : Time) (srcs : List Source) (na : NewsAggregator) :
    na.store.articles.docs ⊆ (srcs.foldl (loadSource now) na).store.articles.docs
      ∧ ∃ new, (srcs.foldl (loadSource now) na).calls = na.calls ++ new
          ∧ FrontierBound na.store.articles.docs new := by
  induction srcs generalizing na with
  | nil => exact ⟨List.Subset.refl _, [], by simp, fun _ _ h => by simp at h⟩
  | cons s rest ih =>
    obtain ⟨hsub1, new1, hc1, hb1⟩ := ih (loadSource now na s)
    obtain ⟨new0, hc0, hb0⟩ := loadSource_bound na s now
    have hsub0 := loadSource_docs_subset na s now
    refine ⟨fun d hd => hsub1 (hsub0 hd), new0 ++ new1, ?_, ?_⟩
    · simp only [List.foldl_cons, hc1, hc0, List.append_assoc]
    · exact FrontierBound.append hb0 (FrontierBound.mono hsub0 hb1)

/-- The method `removeOldArticles` makes one call and leaves the records as they were. -/
theorem removeOldArticles_spec (na : NewsAggregator) (now : Time) :
    (na.removeOldArticles now).calls = na.calls ++ [.RemoveOldArticles (now.AddDate (-7))]
      ∧ (na.removeOldArticles now).store.articles.docs = na.store.articles.docs :=
  ⟨rfl, Store.RemoveOldArticles_docs na.store (now.AddDate (-7))⟩

/-- One run of `process`: records are kept, and every frontier asked lies a minute
after the records stored before. -/
theorem process_spec (na : NewsAggregator) (now : Time) :
    na.store.articles.docs ⊆ (na.process now).store.articles.docs
      ∧ ∃ new, (na.process now).calls = na.calls ++ new
          ∧ FrontierBound na.store.articles.docs new := by
  unfold process
  split
  · exact ⟨List.Subset.refl _, [], by simp, fun _ _ h => by simp at h⟩
  · obtain ⟨hsub, new, hc, hb⟩ :=
      foldl_loadSource_spec now na.sources { na with processing := 1 }
    obtain ⟨hrc, hrd⟩ := removeOldArticles_spec
      (loadNewArticles { na with processing := 1 } now) now
    refine ⟨?_, new ++ [.RemoveOldArticles (now.AddDate (-7))], ?_, ?_⟩
    · simp only [hrd]
      exact hsub
    · simp only [hrc]
      rw [loadNewArticles, hc, List.append_assoc]
    · refine FrontierBound.append hb ?_
      intro name frm h
      simp at h

/-- One cycle: records are kept, and every frontier asked lies a minute after the
records stored before. -/
theorem cycle_spec (na : NewsAggregator) (c : Cycle) :
    na.store.articles.docs ⊆ (na.cycle c).store.articles.docs
      ∧ ∃ new, (na.cycle c).calls = na.calls ++ new
          ∧ FrontierBound na.store.articles.docs new :=
  process_spec { na with sources := c.sources } c.now

/-- A sequence of cycles keeps the records that were stored. -/
theorem run_docs_subset (na : NewsAggregator) (cs : List Cycle) :
    na.store.articles.docs ⊆ (na.run cs).store.articles.docs := by
  induction cs generalizing na with
  | nil => exact List.Subset.refl _
  | cons c rest ih =>
    exact fun d hd => ih (na.cycle c) ((cycle_spec na c).1 hd)

/-- The records stored after the first `k` cycles of a sequence are still stored at
its end. -/
theorem run_take_docs_subset (na : NewsAggregator) (cs : List Cycle) (k : Nat) :
    (na.run (cs.take k)).store.articles.docs ⊆ (na.run cs).store.articles.docs := by
  have h : na.run cs = (na.run (cs.take k)).run (cs.drop k) := by
    unfold run
    rw [← List.foldl_append, List.take_append_drop]
  rw [h]
  exact run_docs_subset _ _

/-- C5. For every source name and every sequence of cycles, whatever their times: a
frontier passed to `Articles` for that source in the next cycle lies at or after (in
fact at least a minute after) the publish time of every record that was stored for
the source at the end of any earlier cycle, or before the first one. -/
theorem frontier_after_stored (na : NewsAggregator) (cs : List Cycle) (c : Cycle)
    (k : Nat) (d : Doc) (name : String) (frm : Time)
    (hd : d ∈ (na.run (cs.take k)).store.articles.docs) (hn : d.sourceName = name)
    (hcall : Call.Articles name frm ∈ newCalls (na.run cs) ((na.run cs).cycle c)) :
    d.publishedAt * 1000000 ≤ frm.ns
      ∧ d.publishedAt * 1000000 + 1 * Minute ≤ frm.ns := by
  obtain ⟨_, new, hc, hb⟩ := cycle_spec (na.run cs) c
  have hnew : newCalls (na.run cs) ((na.run cs).cycle c) = new := by
    simp [newCalls, hc]
  rw [hnew] at hcall
  have h := hb name frm hcall d (run_take_docs_subset na cs k hd) hn
  refine ⟨?_, h⟩
  simp only [Minute, Second, time.Nanosecond] at h
  omega

end newsaggregator

/-! ### Uniqueness of URLs -/

namespace newsaggregator

open time entity mongo mongodb NewsAggregator

/-- What one goroutine of `loadNewArticles` does to the stored records: it appends the
images of leading articles of the answer its source gave to the frontier, or nothing. -/
theorem loadSource_docs (na : NewsAggregator) (s : Source) (now : Time) :
    ∃ added : List articleWithKeywords,
      (loadSource now na s).store.articles.docs = na.store.articles.docs ++ added.map encode
        ∧ (added = [] ∨ ∃ frm as,
            NewsAggregator.frontier now (na.store.LatestArticle s.Name).1 = some frm
              ∧ s.Articles frm = .ok as ∧ added.map (fun w => w.Article) <+: as) := by
  rw [loadSource_store]
  have h0 := Store.LatestArticle_docs na.store s.Name
  cases hf : NewsAggregator.frontier now (na.store.LatestArticle s.Name).1 with
  | none => exact ⟨[], by simp [h0], Or.inl rfl⟩
  | some frm =>
    simp only []
    cases hr : s.Articles frm with
    | error e => exact ⟨[], by simp [h0], Or.inl rfl⟩
    | ok newArticles =>
      simp only []
      split
      · exact ⟨[], by simp [h0], Or.inl rfl⟩
      · obtain ⟨added, hadd, hpre⟩ :=
          Store.AddArticles_docs (na.store.LatestArticle s.Name).2 newArticles
        rw [h0] at hadd
        exact ⟨added, hadd, Or.inr ⟨frm, newArticles, rfl, hr, hpre⟩⟩

/-- One goroutine of `loadNewArticles` for a faithful source keeps the stored records
in agreement with the publisher. -/
theorem loadSource_agrees (pubAt : String → Int) (owner : String → String)
    (na : NewsAggregator) (s : Source) (now : Time) (hs : s.Faithful pubAt owner)
    (hinv : Agrees pubAt owner na.store.articles.docs) :
    Agrees pubAt owner (loadSource now na s).store.articles.docs := by
  obtain ⟨added, hdocs, hadded⟩ := loadSource_docs na s now
  rw [hdocs]
  rcases hadded with rfl | ⟨frm, as, hf, hr, hpre⟩
  · simpa using hinv
  · obtain ⟨hnodup, hitems⟩ := hs frm as hr
    have hmemA : ∀ w ∈ added, w.Article ∈ as := fun w hw =>
      hpre.subset (List.mem_map.mpr ⟨w, hw, rfl⟩)
    -- the frontier lies a minute after every record stored for the source
    obtain ⟨new, hc, hb⟩ := loadSource_bound na s now
    have hcall : Call.Articles s.Name frm ∈ new := by
      have := loadSource_calls na s now
      rw [hc, hf] at this
      have h2 := List.append_cancel_left this
      rw [h2]
      simp
    have hbound := hb s.Name frm hcall
    refine ⟨?_, ?_⟩
    · rw [List.map_append, List.nodup_append]
      refine ⟨hinv.1, ?_, ?_⟩
      · have hurls : (added.map encode).map (fun d => d.url) =
            (added.map (fun w => w.Article)).map (fun a => a.URL) := by
          simp [List.map_map, Function.comp_def, encode]
        rw [hurls]
        exact (hpre.sublist.map _).nodup hnodup
      · intro u hu1 hu2
        obtain ⟨d, hd, rfl⟩ := List.mem_map.mp hu1
        obtain ⟨e, he, heq⟩ := List.mem_map.mp hu2
        obtain ⟨w, hw, rfl⟩ := List.mem_map.mp he
        simp only [encode] at heq
        obtain ⟨hge, hname, hpub, hown⟩ := hitems w.Article (hmemA w hw)
        obtain ⟨hdp, hdn⟩ := hinv.2 d hd
        have h1 := hbound d hd (by rw [hdn, ← heq, hown])
        rw [← heq, ← hpub] at hdp
        simp only [Minute, Second, time.Nanosecond] at h1
        omega
    · intro d hd
      rcases List.mem_append.mp hd with h | h
      · exact hinv.2 d h
      · obtain ⟨w, hw, rfl⟩ := List.mem_map.mp h
        obtain ⟨_, hname, hpub, hown⟩ := hitems w.Article (hmemA w hw)
        simp only [encode, Time.millis, hpub, hname, hown, and_self]

end newsaggregator

namespace newsaggregator

open time entity mongo mongodb NewsAggregator

/-- The goroutines of `loadNewArticles` for faithful sources keep the stored records
in agreement with the publisher. -/
theorem foldl_loadSource_agrees (pubAt : String → Int) (owner : String → String)
    (now : Time) (srcs : List Source) (na : NewsAggregator)
    (hs : ∀ s ∈ srcs, s.Faithful pubAt owner)
    (hinv : Agrees pubAt owner na.store.articles.docs) :
    Agrees pubAt owner (srcs.foldl (loadSource now) na).store.articles.docs := by
  induction srcs generalizing na with
  | nil => exact hinv
  | cons s rest ih =>
    exact ih (loadSource now na s) (fun x hx => hs x (List.mem_cons_of_mem _ hx))
      (loadSource_agrees pubAt owner na s now (hs s (List.mem_cons_self _ _)) hinv)

/-- One cycle over faithful sources keeps the stored records in agreement with the
publisher. -/
theorem cycle_agrees (pubAt : String → Int) (owner : String → String)
    (na : NewsAggregator) (c : Cycle) (hs : ∀ s ∈ c.sources, s.Faithful pubAt owner)
    (hinv : Agrees pubAt owner na.store.articles.docs) :
    Agrees pubAt owner (na.cycle c).store.articles.docs := by
  unfold cycle process
  split
  · exact hinv
  · simp only [(removeOldArticles_spec _ _).2]
    exact foldl_loadSource_agrees pubAt owner c.now c.sources _ hs hinv

/-- A sequence of cycles over faithful sources keeps the stored records in agreement
with the publisher. -/
theorem run_agrees (pubAt : String → Int) (owner : String → String)
    (cs : List Cycle) (na : NewsAggregator)
    (hs : ∀ c ∈ cs, ∀ s ∈ c.sources, s.Faithful pubAt owner)
    (hinv : Agrees pubAt owner na.store.articles.docs) :
    Agrees pubAt owner (na.run cs).store.articles.docs := by
  induction cs generalizing na with
  | nil => exact hinv
  | cons c rest ih =>
    exact ih (na.cycle c) (fun x hx => hs x (List.mem_cons_of_mem _ hx))
      (cycle_agrees pubAt owner na c (hs c (List.mem_cons_self _ _)) hinv)

/-- The source that serves the two demo articles from the frontier on is faithful to
the demo publisher. -/
theorem demoServing_faithful :
    (demoServing [demoTen, demoEleven]).Faithful demoPubAt demoOwner := by
  intro frm as has
  simp only [demoServing, Except.ok.injEq] at has
  subst has
  refine ⟨?_, ?_⟩
  · exact (List.filter_sublist _).map _ |>.nodup (by decide)
  · intro a ha
    obtain ⟨hmem, hge⟩ := List.mem_filter.mp ha
    have hge1 : frm.ns ≤ a.PublishedAt.ns := by
      simpa [Time.Before] using hge
    simp only [List.mem_cons, List.mem_singleton, List.not_mem_nil, or_false] at hmem
    rcases hmem with rfl | rfl
    · exact ⟨hge1, by decide, by decide, by decide⟩
    · exact ⟨hge1, by decide, by decide, by decide⟩

end newsaggregator

namespace newsaggregator

open time entity mongo mongodb NewsAggregator

/-- C5 at two cycles over an empty store, a minute apart: the first stores the
articles of 10:00 and 11:00, and the frontier of the second is 11:01, after the
record of 11:00. -/
theorem frontier_after_stored_witness :
    encode ⟨demoEleven, []⟩ ∈
        ((freshAggregator []).run (List.take 1 [⟨demoNow, [demoHonest]⟩])).store.articles.docs
      ∧ Call.Articles "demo" (Date (ordinal 2024 1 9) 11 1 0 0 UTC) ∈
          newCalls ((freshAggregator []).run [⟨demoNow, [demoHonest]⟩])
            (((freshAggregator []).run [⟨demoNow, [demoHonest]⟩]).cycle
              ⟨demoLater, [demoHonest]⟩)
      ∧ (encode ⟨demoEleven, []⟩).publishedAt * 1000000 ≤
          (Date (ordinal 2024 1 9) 11 1 0 0 UTC).ns
      ∧ (encode ⟨demoEleven, []⟩).publishedAt * 1000000 + 1 * Minute ≤
          (Date (ordinal 2024 1 9) 11 1 0 0 UTC).ns :=
  have hd : encode ⟨demoEleven, []⟩ ∈
      ((freshAggregator []).run (List.take 1 [⟨demoNow, [demoHonest]⟩])).store.articles.docs := by
    decide
  have hc : Call.Articles "demo" (Date (ordinal 2024 1 9) 11 1 0 0 UTC) ∈
      newCalls ((freshAggregator []).run [⟨demoNow, [demoHonest]⟩])
        (((freshAggregator []).run [⟨demoNow, [demoHonest]⟩]).cycle
          ⟨demoLater, [demoHonest]⟩) := by
    decide
  ⟨hd, hc, frontier_after_stored (freshAggregator []) [⟨demoNow, [demoHonest]⟩]
    ⟨demoLater, [demoHonest]⟩ 1 (encode ⟨demoEleven, []⟩) "demo"
    (Date (ordinal 2024 1 9) 11 1 0 0 UTC) hd rfl hc⟩

/-- C6, as stated, fails. From an empty store, a first cycle stores the article of
11:00; the publisher then moves it to 11:05, at the same URL; the second cycle asks
from 11:01 on, is served the article again, and stores it: two records with one URL. -/
theorem run_stores_url_twice :
    ((freshAggregator []).run
        [⟨demoNow, [demoServing [demoEleven]]⟩,
         ⟨demoLater, [demoServing [demoMoved]]⟩]).store.articles.docs =
        [encode ⟨demoEleven, []⟩, encode ⟨demoMoved, []⟩]
      ∧ (encode ⟨demoEleven, []⟩).url = (encode ⟨demoMoved, []⟩).url
      ∧ ¬ (((freshAggregator []).run
            [⟨demoNow, [demoServing [demoEleven]]⟩,
             ⟨demoLater, [demoServing [demoMoved]]⟩]).store.articles.docs.map
              (fun d => d.url)).Nodup := by
  decide

/-- C6, amended. For every sequence of cycles that starts from an empty store and in
which the sources answer faithfully to a publisher who gives every URL one publish
time and one source name (their answers hold only their own articles, published at or
after the frontier asked, no URL twice), the stored records never hold a URL twice:
not at the end of any cycle of the sequence. -/
theorem run_urls_nodup (pubAt : String → Int) (owner : String → String)
    (na : NewsAggregator) (cs : List Cycle) (k : Nat)
    (hempty : na.store.articles.docs = [])
    (hs : ∀ c ∈ cs, ∀ s ∈ c.sources, s.Faithful pubAt owner) :
    (((na.run (cs.take k)).store.articles.docs).map (fun d => d.url)).Nodup := by
  refine (run_agrees pubAt owner (cs.take k) na
    (fun c hc => hs c (List.mem_of_mem_take hc)) ?_).1
  rw [hempty]
  exact ⟨List.nodup_nil, fun d hd => by simp at hd⟩

/-- The amended C6 at two cycles of a source that serves the articles of 10:00 and
11:00 from the frontier on: they are stored once. -/
theorem run_urls_nodup_witness :
    ((freshAggregator []).run
        (List.take 2 [⟨demoNow, [demoHonest]⟩, ⟨demoLater, [demoHonest]⟩])).store.articles.docs =
        [encode ⟨demoTen, []⟩, encode ⟨demoEleven, []⟩]
      ∧ ((((freshAggregator []).run
            (List.take 2 [⟨demoNow, [demoHonest]⟩, ⟨demoLater, [demoHonest]⟩])).store.articles.docs).map
              (fun d => d.url)).Nodup :=
  ⟨by decide,
   run_urls_nodup demoPubAt demoOwner (freshAggregator [])
    [⟨demoNow, [demoHonest]⟩, ⟨demoLater, [demoHonest]⟩] 2 rfl
    (by
      intro c hc s hs
      simp only [List.mem_cons, List.mem_singleton, List.not_mem_nil, or_false] at hc
      rcases hc with rfl | rfl
      · simp only [List.mem_singleton] at hs
        subst hs
        exact demoServing_faithful
      · simp only [List.mem_singleton] at hs
        subst hs
        exact demoServing_faithful)⟩

end newsaggregator

/-! ### Search -/

namespace mongo

/-- The empty filter selects every record. -/
theorem selectDocs_nil (ds : List Doc) : selectDocs [] ds = .ok ds := by
  induction ds with
  | nil => rfl
  | cons d ds ih => simp [selectDocs, matchDoc, ih]

/-- The key `$all` is a query operator. -/
theorem isOperator_all : isOperator "$all" = true := by decide

/-- The filter `keywords: ($all: qkws)` selects the records whose keywords hold every
one of the non-empty `qkws`. -/
theorem selectDocs_all (qkws : List String) (ds : List Doc) :
    selectDocs [("keywords", .sub [("$all", .strs qkws)])] ds =
      .ok (ds.filter (fun d => !qkws.isEmpty && qkws.all (fun q => decide (q ∈ d.keywords)))) := by
  induction ds with
  | nil => rfl
  | cons d ds ih =>
    have hm : matchDoc d [("keywords", .sub [("$all", .strs qkws)])] =
        .ok (!qkws.isEmpty && qkws.all (fun q => decide (q ∈ d.keywords))) := by
      simp [matchDoc, matchCond, isOperator_all, applyOperators, applyOperator, Doc.field]
    simp only [selectDocs, hm, ih, List.filter_cons]

end mongo

namespace mongodb

open mongo time entity

/-- The records `FindArticles` asks the server to select are the matching ones. -/
theorem FindArticles.select (qkws : List String) (ds : List Doc) :
    selectDocs (if qkws.length > 0 then [("keywords", .sub [("$all", .strs qkws)])] else []) ds
      = .ok (ds.filter (fun d => decide (Matches qkws d))) := by
  cases qkws with
  | nil =>
    simp only [List.length_nil, gt_iff_lt, lt_self_iff_false, if_false, selectDocs_nil]
    congr 1
    symm
    rw [List.filter_eq_self]
    intro d _
    simp [Matches]
  | cons q rest =>
    simp only [List.length_cons, gt_iff_lt, Nat.zero_lt_succ, if_true, selectDocs_all]
    congr 1
    apply List.filter_congr
    intro d _
    have hall : (rest.all fun q => decide (q ∈ d.keywords)) =
        decide (∀ a ∈ rest, a ∈ d.keywords) := by
      rw [Bool.eq_iff_iff]
      simp [List.all_eq_true]
    simp [Matches, hall]

/-- C7. When keyword extraction succeeds for the query and the round trip to the
server goes through, `FindArticles` returns no error and the first 100 (all, when
there are fewer) of the matching records arranged newest first: the answer `ds`
followed by the records `cut` by the limit is a rearrangement of exactly the stored
records that match, in descending publish time; a record matches iff the keyword set
of the query is empty or every keyword of it is among the record's stored keywords.
In particular a query nothing matches gets the empty answer and no error.  The stored
records stay as they are. -/
theorem FindArticles_spec (s : Store) (query : String) (qkws : List String)
    (hk : s.keywordsExtractor query = .ok qkws) (hh : s.articles.nextFault = none) :
    ∃ ds cut : List Doc,
      (s.FindArticles query).1 = .ok (ds.map (decode s.articles.loc))
        ∧ (ds ++ cut).Perm (s.articles.docs.filter (fun d => decide (Matches qkws d)))
        ∧ (ds ++ cut).Pairwise (fun a b => b.publishedAt ≤ a.publishedAt)
        ∧ ds.length = min 100 (ds ++ cut).length
        ∧ ((∀ d ∈ s.articles.docs, ¬ Matches qkws d) → (s.FindArticles query).1 = .ok [])
        ∧ (s.FindArticles query).2.articles.docs = s.articles.docs := by
  have hres : (s.FindArticles query).1 = .ok (((Collection.sortDesc
        (s.articles.docs.filter (fun d => decide (Matches qkws d)))).take 100).map
          (decode s.articles.loc))
      ∧ (s.FindArticles query).2.articles.docs = s.articles.docs := by
    unfold Store.FindArticles
    simp only [hk, Collection.Aggregate, hh, FindArticles.select]
    exact ⟨rfl, rfl⟩
  refine ⟨(Collection.sortDesc (s.articles.docs.filter
      (fun d => decide (Matches qkws d)))).take 100,
    (Collection.sortDesc (s.articles.docs.filter
      (fun d => decide (Matches qkws d)))).drop 100, hres.1, ?_, ?_, ?_, ?_, hres.2⟩
  · rw [List.take_append_drop]
    exact List.perm_insertionSort _ _
  · rw [List.take_append_drop]
    exact Collection.sorted_sortDesc _
  · rw [List.take_append_drop, List.length_take]
  · intro hnone
    rw [hres.1]
    have : s.articles.docs.filter (fun d => decide (Matches qkws d)) = [] := by
      rw [List.filter_eq_nil_iff]
      intro d hd
      simpa using hnone d hd
    rw [this]
    rfl

/-- C7 at a store of three records and the query `election budget`: the two records
that hold both keywords come back, the newer first; the record that holds only one
of them does not. -/
theorem FindArticles_spec_witness :
    (pollStore.FindArticles "election budget").1 =
        .ok [decode UTC (pollDocs.get ⟨2, by decide⟩), decode UTC (pollDocs.get ⟨0, by decide⟩)]
      ∧ ∃ ds cut : List Doc,
          (pollStore.FindArticles "election budget").1 = .ok (ds.map (decode pollStore.articles.loc))
            ∧ (ds ++ cut).Perm (pollStore.articles.docs.filter
                (fun d => decide (Matches ["election", "budget"] d)))
            ∧ (ds ++ cut).Pairwise (fun a b => b.publishedAt ≤ a.publishedAt)
            ∧ ds.length = min 100 (ds ++ cut).length
            ∧ ((∀ d ∈ pollStore.articles.docs, ¬ Matches ["election", "budget"] d) →
                (pollStore.FindArticles "election budget").1 = .ok [])
            ∧ (pollStore.FindArticles "election budget").2.articles.docs =
                pollStore.articles.docs :=
  ⟨by decide, FindArticles_spec pollStore "election budget" ["election", "budget"] rfl rfl⟩

end mongodb

/-! ### Storing a batch -/

namespace mongodb

open mongo time entity

/-- The loop of `AddArticles` fails as soon as one extraction fails. -/
theorem AddArticles.writes_error (ke : KeywordsExtractor) (as : List Article)
    (a : Article) (ha : a ∈ as) (e : GoError) (he : ke a.Text = .error e) :
    ∃ err, AddArticles.writes ke as = .error err := by
  induction as with
  | nil => simp at ha
  | cons b rest ih =>
    simp only [AddArticles.writes]
    cases hb : ke b.Text with
    | error e1 => exact ⟨_, rfl⟩
    | ok kw =>
      have hin : a ∈ rest := by
        rcases List.mem_cons.mp ha with rfl | h
        · rw [he] at hb; cases hb
        · exact h
      obtain ⟨err, herr⟩ := ih hin
      exact ⟨err, by simp [herr]⟩

/-- When every extraction succeeds, the loop of `AddArticles` pairs each article with
its own keywords, in order. -/
theorem AddArticles.writes_ok (ke : KeywordsExtractor) (as : List Article)
    (kwOf : Article → List String) (h : ∀ a ∈ as, ke a.Text = .ok (kwOf a)) :
    AddArticles.writes ke as = .ok (as.map (fun a => ⟨a, kwOf a⟩)) := by
  induction as with
  | nil => rfl
  | cons b rest ih =>
    simp only [AddArticles.writes, h b (List.mem_cons_self _ _),
      ih (fun a ha => h a (List.mem_cons_of_mem _ ha)), List.map_cons]

/-- C8. If keyword extraction fails for an article of the batch, `AddArticles` returns
an error and leaves the store exactly as it was: no round trip is made, no record is
written.  If it succeeds for all, `AddArticles` makes exactly one driver call, the
bulk write of all articles of the batch in order, each with its own keyword set; it
reports an error iff that call does, and for a non-empty batch the call is the one
round trip it adds to the log. -/
theorem AddArticles_all_or_nothing (s : Store) (as : List Article) :
    ((∃ a ∈ as, ∃ e, s.keywordsExtractor a.Text = .error e) →
        (∃ err, (s.AddArticles as).1 = some err) ∧ (s.AddArticles as).2 = s)
      ∧ ∀ kwOf : Article → List String,
          (∀ a ∈ as, s.keywordsExtractor a.Text = .ok (kwOf a)) →
            (s.AddArticles as).2.articles =
                (s.articles.BulkWrite (as.map (fun a => encode ⟨a, kwOf a⟩))).2
              ∧ (s.AddArticles as).2.keywordsExtractor = s.keywordsExtractor
              ∧ ((s.AddArticles as).1 = none ↔
                  (s.articles.BulkWrite (as.map (fun a => encode ⟨a, kwOf a⟩))).1 = .ok ())
              ∧ (as ≠ [] → (s.AddArticles as).2.articles.log =
                  s.articles.log ++ [.bulkWrite (as.map (fun a => encode ⟨a, kwOf a⟩))]) := by
  refine ⟨?_, ?_⟩
  · rintro ⟨a, ha, e, he⟩
    obtain ⟨err, herr⟩ := AddArticles.writes_error s.keywordsExtractor as a ha e he
    have hbody : s.AddArticles as = (some err, s) := by
      unfold Store.AddArticles
      rw [herr]
    rw [hbody]
    exact ⟨⟨err, rfl⟩, rfl⟩
  · intro kwOf h
    have hw := AddArticles.writes_ok s.keywordsExtractor as kwOf h
    have hmap : (as.map (fun a => (⟨a, kwOf a⟩ : articleWithKeywords))).map encode =
        as.map (fun a => encode ⟨a, kwOf a⟩) := by
      simp [List.map_map, Function.comp_def]
    have hbody : s.AddArticles as =
        match s.articles.BulkWrite (as.map (fun a => encode ⟨a, kwOf a⟩)) with
        | (.error e, c) =>
          (some (.New ("failed to bulk write to mongodb: " ++ e)), { s with articles := c })
        | (.ok _, c) => (none, { s with articles := c }) := by
      unfold Store.AddArticles
      simp only [hw, hmap]
    rw [hbody]
    have hlog : as ≠ [] →
        (s.articles.BulkWrite (as.map (fun a => encode ⟨a, kwOf a⟩))).2.log =
          s.articles.log ++ [.bulkWrite (as.map (fun a => encode ⟨a, kwOf a⟩))] := by
      intro hne
      unfold Collection.BulkWrite
      have : (as.map (fun a => encode ⟨a, kwOf a⟩)).isEmpty = false := by
        cases as with
        | nil => exact absurd rfl hne
        | cons b rest => rfl
      simp only [this, Bool.false_eq_true, if_false]
      cases s.articles.nextFault <;> rfl
    generalize s.articles.BulkWrite (as.map (fun a => encode ⟨a, kwOf a⟩)) = r at hlog
    obtain ⟨res, c⟩ := r
    cases res with
    | error e => exact ⟨rfl, rfl, by simp, hlog⟩
    | ok u => exact ⟨rfl, rfl, by simp, hlog⟩

/-- C8 at two batches over an empty store whose extractor fails on the text `broken`:
the batch that ends with it is refused whole, after the first article was tagged; the
batch without it goes to the server in one bulk write, each article with its own
keywords. -/
theorem AddArticles_all_or_nothing_witness :
    (brittleStore.AddArticles [textArticle "fine", textArticle "broken"]).1 =
        some (.New "failed to extract keywords: failed to run mystem: exit status 1")
      ∧ (brittleStore.AddArticles [textArticle "fine", textArticle "broken"]).2.articles =
          brittleStore.articles
      ∧ (brittleStore.AddArticles [textArticle "fine", textArticle "good"]).1 = none
      ∧ (brittleStore.AddArticles [textArticle "fine", textArticle "good"]).2.articles.log =
          [.bulkWrite [encode ⟨textArticle "fine", ["fine"]⟩, encode ⟨textArticle "good", ["good"]⟩]]
      ∧ (brittleStore.AddArticles [textArticle "fine", textArticle "broken"]).2 = brittleStore :=
  ⟨by decide, by decide, by decide, by decide,
   ((AddArticles_all_or_nothing brittleStore [textArticle "fine", textArticle "broken"]).1
      ⟨textArticle "broken", by decide, _, rfl⟩).2⟩

end mongodb

/-! ### The re-entrancy guard -/

namespace newsaggregator

open time entity mongo mongodb NewsAggregator

/-- The goroutines of `loadNewArticles` ask the store for the latest article of every
source. -/
theorem foldl_loadSource_latest (now : Time) (srcs : List Source) (na : NewsAggregator) :
    ∃ new, (srcs.foldl (loadSource now) na).calls = na.calls ++ new
      ∧ ∀ s ∈ srcs, Call.LatestArticle s.Name ∈ new := by
  induction srcs generalizing na with
  | nil => exact ⟨[], by simp, fun _ h => by simp at h⟩
  | cons s rest ih =>
    obtain ⟨new1, hc1, hl1⟩ := ih (loadSource now na s)
    obtain ⟨tail0, hc0⟩ : ∃ tail0, (loadSource now na s).calls =
        na.calls ++ Call.LatestArticle s.Name :: tail0 := ⟨_, loadSource_calls na s now⟩
    refine ⟨(Call.LatestArticle s.Name :: tail0) ++ new1, ?_, ?_⟩
    · rw [List.foldl_cons, hc1, hc0, List.append_assoc]
    · intro x hx
      rcases List.mem_cons.mp hx with rfl | h
      · exact List.mem_append_left _ (List.mem_cons_self _ _)
      · exact List.mem_append_right _ (hl1 x h)

/-- C9. Invoked while the flag is 1, `process` returns the aggregator as it found it:
no call to the store or to a source is added and the flag stays 1.  Invoked while the
flag is 0, it runs the cycle (it asks for the latest article of every source, then
calls `RemoveOldArticles` with the cutoff seven days before `now`, last of all) and
leaves the flag at 0. -/
theorem process_guard (na : NewsAggregator) (now : Time) :
    (na.processing = 1 →
        na.process now = na ∧ (na.process now).calls = na.calls
          ∧ (na.process now).processing = 1)
      ∧ (na.processing = 0 →
          (na.process now).processing = 0
            ∧ ∃ new, (na.process now).calls =
                  na.calls ++ new ++ [.RemoveOldArticles (now.AddDate (-7))]
                ∧ ∀ s ∈ na.sources, Call.LatestArticle s.Name ∈ new) := by
  refine ⟨?_, ?_⟩
  · intro h
    have : na.process now = na := by
      unfold process
      simp [h]
    rw [this]
    exact ⟨rfl, rfl, h⟩
  · intro h
    have hne : ¬ na.processing = 1 := by omega
    unfold process
    simp only [hne, if_false]
    refine ⟨trivial, ?_⟩
    obtain ⟨new, hc, hl⟩ := foldl_loadSource_latest now na.sources { na with processing := 1 }
    refine ⟨new, ?_, hl⟩
    rw [(removeOldArticles_spec _ now).1, loadNewArticles, hc]

/-- C9 at the demo aggregator: with the flag at 1 nothing happens; with the flag at 0
the cycle runs and the flag is 0 again. -/
theorem process_guard_witness :
    ({ demoAggregator [demoHonest] with processing := 1 }.process demoNow).calls = []
      ∧ ({ demoAggregator [demoHonest] with processing := 1 }.process demoNow).processing = 1
      ∧ ((demoAggregator [demoHonest]).process demoNow).calls =
          [.LatestArticle "demo", .Articles "demo" (Date (ordinal 2024 1 9) 11 1 0 0 UTC),
           .RemoveOldArticles (Date (ordinal 2024 1 3) 0 1 0 0 UTC)]
      ∧ ((demoAggregator [demoHonest]).process demoNow).processing = 0 :=
  ⟨((process_guard { demoAggregator [demoHonest] with processing := 1 } demoNow).1 rfl).2.1,
   ((process_guard { demoAggregator [demoHonest] with processing := 1 } demoNow).1 rfl).2.2,
   by decide,
   ((process_guard (demoAggregator [demoHonest]) demoNow).2 rfl).1⟩

/-- C10 (the code departs from the claim). The load of the flag and the store of 1 are
two atomic operations, not one: when two invocations of `process` both load the flag
before either stores it, both read 0, both pass the guard and both are active at
once.  When the first returns it stores 0 while the second is still active, and a
third invocation passes the guard too. -/
theorem guard_race_two_active :
    (Shared.schedule ⟨0, [.entry, .entry]⟩ [0, 1]) = ⟨0, [.passed, .passed]⟩
      ∧ (Shared.schedule ⟨0, [.entry, .entry]⟩ [0, 1, 0, 1]) = ⟨1, [.active, .active]⟩
      ∧ (Shared.schedule ⟨0, [.entry, .entry]⟩ [0, 1, 0, 1]).inFlight = 2
      ∧ (Shared.schedule ⟨0, [.entry, .entry, .entry]⟩ [0, 1, 0, 1, 0, 2, 2]) =
          ⟨1, [.returned, .active, .active]⟩ := by
  decide

end newsaggregator

/-! ### The lenta.ru adapter -/

namespace time

/-- The instant of a time built by `Date` at hour and minute of a day. -/
theorem Date_ns (ymd hour minute : Int) (loc : Location) (h : loc.transitions = []) :
    (Date ymd hour minute 0 0 loc).ns =
      (Date ymd 0 0 0 0 loc).ns + hour * Hour + minute * Minute := by
  simp only [Date_fixed _ _ _ _ _ loc h, Hour, Minute, Second, time.Nanosecond]
  omega

/-- The calendar date of a midnight built by `Date`, read in its location. -/
theorem Date_YMD (ymd : Int) (loc : Location) (h : loc.transitions = []) :
    (Date ymd 0 0 0 0 loc).YMD = ymd := by
  rw [Date_fixed _ _ _ _ _ loc h]
  simp only [Time.YMD, Time.wall_fixed ⟨_, loc⟩ h, Hour, Minute, Second, time.Nanosecond]
  omega

/-- A day after a midnight built by `Date` is the midnight of the next date. -/
theorem Date_Add_day (ymd : Int) (loc : Location) (h : loc.transitions = []) :
    (Date ymd 0 0 0 0 loc).Add (24 * Hour) = Date (ymd + 1) 0 0 0 0 loc := by
  simp only [Date_fixed _ _ _ _ _ loc h, Time.Add, Hour, Minute, Second, time.Nanosecond,
    Time.mk.injEq, and_true]
  omega

end time

namespace lentaru

open time entity

/-- A time read by `setDateTime` is an hour and a minute of the day of `dt`. -/
theorem Source.setDateTime_ok (s : Source) (dt : Time) (timeStr : String) (t : Time)
    (h : s.setDateTime dt timeStr = .ok t) :
    ∃ hour minute : Nat, hour ≤ 23 ∧ minute ≤ 59 ∧ t = s.toDateWithTime dt hour minute := by
  unfold Source.setDateTime at h
  split at h
  · rename_i p0 p1 _
    cases h0 : strconv.ParseUint p0 with
    | error e => simp [h0] at h
    | ok hour =>
      simp only [h0] at h
      split at h
      · cases h
      · cases h1 : strconv.ParseUint p1 with
        | error e => simp [h1] at h
        | ok minute =>
          simp only [h1] at h
          split at h
          · cases h
          · simp only [Except.ok.injEq] at h
            exact ⟨hour, minute, by omega, by omega, h.symm⟩
  · cases h

/-- With Moscow at a fixed offset, a time built by `toDateWithTime` at an hour and a
minute lies in the day that starts at `toDateWithTime dt 0 0`. -/
theorem Source.toDateWithTime_window (s : Source) (hfix : s.moscow.transitions = [])
    (dt : Time) (hour minute : Nat) (hh : hour ≤ 23) (hm : minute ≤ 59) :
    (s.toDateWithTime dt 0 0).ns ≤ (s.toDateWithTime dt hour minute).ns
      ∧ (s.toDateWithTime dt hour minute).ns < (s.toDateWithTime dt 0 0).ns + 24 * Hour := by
  simp only [Source.toDateWithTime]
  rw [Date_ns dt.YMD hour minute s.moscow hfix]
  simp only [Hour, Minute, Second, time.Nanosecond]
  omega

/-- The articles read from a listing are published within the day of the listing. -/
theorem Source.articles.each_window (s : Source) (hfix : s.moscow.transitions = [])
    (frm : Time) (items : List Item)
    (as : List Article) (h : Source.articles.each s frm items = .ok as) :
    ∀ a ∈ as, (s.toDateWithTime frm 0 0).ns ≤ a.PublishedAt.ns
      ∧ a.PublishedAt.ns < (s.toDateWithTime frm 0 0).ns + 24 * Hour := by
  induction items generalizing as with
  | nil =>
    simp only [Source.articles.each, Except.ok.injEq] at h
    subst h
    intro a ha
    simp at ha
  | cons sel rest ih =>
    simp only [Source.articles.each] at h
    cases hhref : sel.href with
    | none => simp [hhref] at h
    | some urlPath =>
      simp only [hhref] at h
      cases ht : s.setDateTime frm (strings.TrimSpace sel.time) with
      | error e => simp [ht] at h
      | ok publishedAt =>
        simp only [ht] at h
        cases hr : Source.articles.each s frm rest with
        | error e => simp [hr] at h
        | ok as1 =>
          simp only [hr, Except.ok.injEq] at h
          subst h
          intro a ha
          rcases List.mem_cons.mp ha with rfl | ha1
          · obtain ⟨hour, minute, hh, hm, rfl⟩ := Source.setDateTime_ok s frm _ _ ht
            exact Source.toDateWithTime_window s hfix frm hour minute hh hm
          · exact ih as1 hr a ha1

/-- Fetching the texts keeps the articles and their publish times, in order. -/
theorem Source.articles.texts_times (s : Source) (l as : List Article)
    (h : Source.articles.texts s l = .ok as) :
    as.map (fun a => a.PublishedAt) = l.map (fun a => a.PublishedAt) := by
  induction l generalizing as with
  | nil =>
    simp only [Source.articles.texts, Except.ok.injEq] at h
    subst h; rfl
  | cons a rest ih =>
    simp only [Source.articles.texts] at h
    cases ha : s.articleText a.URL with
    | error e => simp [ha] at h
    | ok text =>
      simp only [ha] at h
      cases hr : Source.articles.texts s rest with
      | error e => simp [hr] at h
      | ok as1 =>
        simp only [hr, Except.ok.injEq] at h
        subst h
        simp [ih as1 hr]

/-- The scan for `fromIndex` keeps a final part of the list. -/
theorem Source.articles.fromIndex_suffix (frm : Time) (l : List Article) :
    Source.articles.fromIndex frm l <:+ l := by
  induction l with
  | nil => exact List.suffix_refl _
  | cons a rest ih =>
    simp only [Source.articles.fromIndex]
    split
    · exact List.suffix_refl _
    · exact ih.trans (List.suffix_cons a rest)

/-- In an ascending list the scan for `fromIndex` keeps articles published at or after
`frm` only. -/
theorem Source.articles.fromIndex_ge (frm : Time) (l : List Article)
    (hs : l.Pairwise (fun a b => a.PublishedAt.ns ≤ b.PublishedAt.ns)) :
    ∀ a ∈ Source.articles.fromIndex frm l, frm.ns ≤ a.PublishedAt.ns := by
  induction l with
  | nil => intro a ha; simp [Source.articles.fromIndex] at ha
  | cons b rest ih =>
    simp only [Source.articles.fromIndex]
    obtain ⟨hb, hrest⟩ := List.pairwise_cons.mp hs
    split
    · rename_i hge
      have hb0 : frm.ns ≤ b.PublishedAt.ns := by
        simp only [Time.Equal, Time.After, Bool.or_eq_true, decide_eq_true_eq] at hge
        omega
      intro a ha
      rcases List.mem_cons.mp ha with rfl | h1
      · exact hb0
      · exact le_trans hb0 (hb a h1)
    · exact ih hrest

/-- The sort of `articles` puts the articles in ascending publish time. -/
theorem sorted_sortByPublishedAt (as : List Article) :
    (sortByPublishedAt as).Pairwise (fun a b => a.PublishedAt.ns ≤ b.PublishedAt.ns) := by
  haveI : IsTotal Article (fun a b => a.PublishedAt.ns ≤ b.PublishedAt.ns) :=
    ⟨fun a b => le_total a.PublishedAt.ns b.PublishedAt.ns⟩
  haveI : IsTrans Article (fun a b => a.PublishedAt.ns ≤ b.PublishedAt.ns) :=
    ⟨fun _ _ _ hab hbc => le_trans hab hbc⟩
  exact List.sorted_insertionSort _ as

/-- What `articles` returns when it succeeds: the publish times ascend, and each lies
at or after `frm` and within the day that starts at `toDateWithTime frm 0 0`. -/
theorem Source.articles_ok (s : Source) (hfix : s.moscow.transitions = [])
    (frm : Time) (as : List Article) (h : s.articles frm = .ok as) :
    (as.map (fun a => a.PublishedAt.ns)).Pairwise (· ≤ ·)
      ∧ ∀ a ∈ as, frm.ns ≤ a.PublishedAt.ns
          ∧ (s.toDateWithTime frm 0 0).ns ≤ a.PublishedAt.ns
          ∧ a.PublishedAt.ns < (s.toDateWithTime frm 0 0).ns + 24 * Hour := by
  unfold Source.articles at h
  simp only [] at h
  cases hl : s.http.listing (formArticlesURL frm) with
  | error e => simp [hl] at h
  | ok res =>
    simp only [hl] at h
    split at h
    · split at h
      · simp only [Except.ok.injEq] at h
        subst h
        exact ⟨List.Pairwise.nil, fun a ha => by simp at ha⟩
      · cases h
    · cases hb : res.Body with
      | error e => simp [hb] at h
      | ok doc =>
        simp only [hb] at h
        cases he : Source.articles.each s frm doc with
        | error e => simp [he] at h
        | ok listed =>
          simp only [he] at h
          have hwin := Source.articles.each_window s hfix frm doc listed he
          have hsorted := sorted_sortByPublishedAt listed
          have hsuf := Source.articles.fromIndex_suffix frm (sortByPublishedAt listed)
          have hge := Source.articles.fromIndex_ge frm (sortByPublishedAt listed) hsorted
          have htimes := Source.articles.texts_times s _ as h
          have hkept : (Source.articles.fromIndex frm (sortByPublishedAt listed)).Pairwise
              (fun a b => a.PublishedAt.ns ≤ b.PublishedAt.ns) :=
            hsorted.sublist hsuf.sublist
          have hmap : as.map (fun a => a.PublishedAt.ns) =
              (Source.articles.fromIndex frm (sortByPublishedAt listed)).map
                (fun a => a.PublishedAt.ns) := by
            have := congrArg (List.map (fun t : Time => t.ns)) htimes
            simpa [List.map_map, Function.comp_def] using this
          refine ⟨?_, ?_⟩
          · rw [hmap, List.pairwise_map]
            exact hkept
          · intro a ha
            have hmem : a.PublishedAt ∈ (Source.articles.fromIndex frm
                (sortByPublishedAt listed)).map (fun a => a.PublishedAt) := by
              rw [← htimes]
              exact List.mem_map.mpr ⟨a, ha, rfl⟩
            obtain ⟨b, hb1, hb2⟩ := List.mem_map.mp hmem
            rw [← hb2]
            have hbl : b ∈ listed :=
              (List.perm_insertionSort _ listed).mem_iff.mp (hsuf.subset hb1)
            exact ⟨hge b hb1, hwin b hbl⟩

end lentaru

namespace lentaru

open time entity

/-- The loop of `Articles`, started at the midnight `Date ymd 0 0 0 0 s.moscow` with the
articles `acc` gathered so far: if these ascend, lie before the end of that day and
at or after `lo`, and `lo` is not after the end of that day, then the articles the
loop returns ascend and lie at or after `lo`. -/
theorem Source.Articles.loop_ok (s : Source) (hfix : s.moscow.transitions = [])
    (nowDay : Time) (lo : Int) (fuel : Nat) :
    ∀ (ymd : Int) (acc as : List Article),
      Source.Articles.loop s nowDay fuel (Date ymd 0 0 0 0 s.moscow) acc = some (.ok as) →
      (acc.map (fun a => a.PublishedAt.ns)).Pairwise (· ≤ ·) →
      (∀ a ∈ acc, lo ≤ a.PublishedAt.ns
        ∧ a.PublishedAt.ns < (Date ymd 0 0 0 0 s.moscow).ns + 24 * Hour) →
      lo ≤ (Date ymd 0 0 0 0 s.moscow).ns + 24 * Hour →
      (as.map (fun a => a.PublishedAt.ns)).Pairwise (· ≤ ·)
        ∧ ∀ a ∈ as, lo ≤ a.PublishedAt.ns := by
  induction fuel with
  | zero => intro ymd acc as h; simp [Source.Articles.loop] at h
  | succ fuel ih =>
    intro ymd acc as h hsorted hacc hlo
    simp only [Source.Articles.loop] at h
    split at h
    · simp only [Option.some.injEq, Except.ok.injEq] at h
      subst h
      exact ⟨hsorted, fun a ha => (hacc a ha).1⟩
    · rw [Date_Add_day _ _ hfix] at h
      cases hq : s.articles (Date (ymd + 1) 0 0 0 0 s.moscow) with
      | error e => simp [hq] at h
      | ok currAs =>
        simp only [hq] at h
        obtain ⟨hcs, hcw⟩ := Source.articles_ok s hfix _ currAs hq
        have hstart : (s.toDateWithTime (Date (ymd + 1) 0 0 0 0 s.moscow) 0 0).ns =
            (Date ymd 0 0 0 0 s.moscow).ns + 24 * Hour := by
          simp only [Source.toDateWithTime, Date_YMD _ _ hfix]
          rw [← Date_Add_day _ _ hfix]
          rfl
        have hnext : (Date (ymd + 1) 0 0 0 0 s.moscow).ns =
            (Date ymd 0 0 0 0 s.moscow).ns + 24 * Hour := by
          rw [← Date_Add_day _ _ hfix]
          rfl
        refine ih (ymd + 1) (acc ++ currAs) as h ?_ ?_ ?_
        · rw [List.map_append, List.pairwise_append]
          refine ⟨hsorted, hcs, ?_⟩
          intro x hx y hy
          obtain ⟨a, ha, rfl⟩ := List.mem_map.mp hx
          obtain ⟨b, hb, rfl⟩ := List.mem_map.mp hy
          have h1 := (hacc a ha).2
          have h2 := (hcw b hb).2.1
          rw [hstart] at h2
          omega
        · intro a ha
          rcases List.mem_append.mp ha with h1 | h1
          · have := hacc a h1
            rw [hnext]
            simp only [Hour, Minute, Second, time.Nanosecond] at this ⊢
            omega
          · have := hcw a h1
            rw [hstart] at this
            rw [hnext]
            omega
        · rw [hnext]
          simp only [Hour, Minute, Second, time.Nanosecond] at hlo ⊢
          omega

/-- Whatever the locations of `from` and of the current time, with Moscow at a fixed
offset: the articles `Articles` returns when it succeeds are in ascending order of
publish time. -/
theorem Source.Articles_ascending (s : Source) (hfix : s.moscow.transitions = [])
    (now : Time) (fuel : Nat) (frm : Time)
    (as : List Article) (h : s.Articles now fuel frm = some (.ok as)) :
    (as.map (fun a => a.PublishedAt.ns)).Pairwise (· ≤ ·) := by
  unfold Source.Articles at h
  split at h
  · cases h
  · simp only [] at h
    cases hq : s.articles frm with
    | error e => simp [hq] at h
    | ok acc =>
      simp only [hq] at h
      obtain ⟨hs, hw⟩ := Source.articles_ok s hfix frm acc hq
      exact (Source.Articles.loop_ok s hfix _ (s.toDateWithTime frm 0 0).ns fuel frm.YMD acc as h hs
        (fun a ha => ⟨(hw a ha).2.1, (hw a ha).2.2⟩)
        (by simp only [Source.toDateWithTime, Hour, Minute, Second, time.Nanosecond]; omega)).1

/-- With Moscow at a fixed offset: when the calendar date of `from` in its own
location is its calendar date in Moscow, the articles `Articles` returns when it
succeeds are published at or after `from`. -/
theorem Source.Articles_from_on (s : Source) (hfix : s.moscow.transitions = [])
    (now : Time) (fuel : Nat) (frm : Time)
    (as : List Article) (hz : frm.YMD = (frm.In s.moscow).YMD)
    (h : s.Articles now fuel frm = some (.ok as)) :
    ∀ a ∈ as, frm.ns ≤ a.PublishedAt.ns := by
  unfold Source.Articles at h
  split at h
  · cases h
  · simp only [] at h
    cases hq : s.articles frm with
    | error e => simp [hq] at h
    | ok acc =>
      simp only [hq] at h
      obtain ⟨hs, hw⟩ := Source.articles_ok s hfix frm acc hq
      refine (Source.Articles.loop_ok s hfix _ frm.ns fuel frm.YMD acc as h hs
        (fun a ha => ⟨(hw a ha).1, (hw a ha).2.2⟩) ?_).2
      rw [hz]
      simp only [Time.In, Time.YMD, Time.wall_fixed ⟨frm.ns, s.moscow⟩ hfix,
        Date_fixed _ _ _ _ _ s.moscow hfix, Hour, Minute, Second, time.Nanosecond]
      omega

end lentaru

/-! ### The day windows of the lenta.ru adapter -/

namespace lentaru

open time entity

/-- Putting a listing in front of a record does not change whether there is one. -/
theorem isSome_map_cons (url : Int) (o : Option (List Int)) :
    (o.map (fun later => url :: later)).isSome = o.isSome := by
  cases o <;> rfl

/-- The loop of `Articles` and the record of its listings end together. -/
theorem Source.Articles.loopListings_isSome (s : Source) (nowDay : Time) (fuel : Nat) :
    ∀ (fromDay : Time) (acc : List Article),
      (Source.Articles.loopListings s nowDay fuel fromDay).isSome =
        (Source.Articles.loop s nowDay fuel fromDay acc).isSome := by
  induction fuel with
  | zero => intro fromDay acc; rfl
  | succ fuel ih =>
    intro fromDay acc
    simp only [Source.Articles.loopListings, Source.Articles.loop]
    split
    · rfl
    · cases s.articles (fromDay.Add (24 * Hour)) with
      | error e => rfl
      | ok currAs =>
        rw [isSome_map_cons]
        exact ih _ _

/-- The method `Articles` and the record of its listings end together. -/
theorem Source.Articles.listings_isSome (s : Source) (now : Time) (fuel : Nat) (frm : Time) :
    (Source.Articles.listings s now fuel frm).isSome = (s.Articles now fuel frm).isSome := by
  unfold Source.Articles.listings Source.Articles
  split
  · rfl
  · simp only []
    cases s.articles frm with
    | error e => rfl
    | ok as =>
      rw [isSome_map_cons]
      exact Source.Articles.loopListings_isSome s _ fuel _ as

end lentaru

namespace time

/-- Two midnights built by `Date` in one location are the same instant only when they
are the same date. -/
theorem Date_Equal (y z : Int) (loc : Location) (h : loc.transitions = []) :
    (Date y 0 0 0 0 loc).Equal (Date z 0 0 0 0 loc) = decide (y = z) := by
  simp only [Time.Equal, Date_fixed _ _ _ _ _ loc h, Hour, Minute, Second, time.Nanosecond]
  by_cases h : y = z
  · subst h; simp
  · have : ¬ (y * (24 * (60 * (60 * (1000000000 * 1)))) + 0 * (60 * (60 * (1000000000 * 1)))
        + 0 * (60 * (1000000000 * 1)) + 0 * (1000000000 * 1) + 0
        - loc.offset * (1000000000 * 1) =
      z * (24 * (60 * (60 * (1000000000 * 1)))) + 0 * (60 * (60 * (1000000000 * 1)))
        + 0 * (60 * (1000000000 * 1)) + 0 * (1000000000 * 1) + 0
        - loc.offset * (1000000000 * 1)) := by omega
    simp [h, this]

/-- The dates from `first` on start with `first`. -/
theorem days_succ (first : Int) (count : Nat) :
    days first (count + 1) = first :: days (first + 1) count := rfl

end time

namespace lentaru

open time entity

/-- When the midnight the loop of `Articles` starts from lies after the midnight it
waits for and every call of `articles` succeeds, the loop is still running after any
number of rounds. -/
theorem Source.Articles.loop_runs_on (s : Source) (hfix : s.moscow.transitions = [])
    (hall : ∀ t, ∃ as, s.articles t = .ok as) (z : Int) (fuel : Nat) :
    ∀ (y : Int) (acc : List Article), z < y →
      Source.Articles.loop s (Date z 0 0 0 0 s.moscow) fuel (Date y 0 0 0 0 s.moscow) acc
        = none := by
  induction fuel with
  | zero => intro y acc _; rfl
  | succ fuel ih =>
    intro y acc hlt
    have hne : ¬ y = z := by omega
    simp only [Source.Articles.loop, Date_Equal _ _ _ hfix, hne, decide_False,
      Bool.false_eq_true, if_false, Date_Add_day _ _ hfix]
    obtain ⟨as, has⟩ := hall (Date (y + 1) 0 0 0 0 s.moscow)
    simp only [has]
    exact ih (y + 1) _ (by omega)

/-- When the midnight the loop of `Articles` starts from is not after the midnight it
waits for, every call of `articles` succeeds and the fuel suffices, the loop requests
the listings of the dates after the first up to the last, one each, in order. -/
theorem Source.Articles.loopListings_days (s : Source) (hfix : s.moscow.transitions = [])
    (hall : ∀ t, ∃ as, s.articles t = .ok as) (z : Int) (fuel : Nat) :
    ∀ (y : Int), y ≤ z → (z - y).toNat < fuel →
      Source.Articles.loopListings s (Date z 0 0 0 0 s.moscow) fuel (Date y 0 0 0 0 s.moscow)
        = some (days (y + 1) (z - y).toNat) := by
  induction fuel with
  | zero => intro y _ hf; omega
  | succ fuel ih =>
    intro y hle hf
    by_cases hyz : y = z
    · subst hyz
      simp [Source.Articles.loopListings, Date_Equal _ _ _ hfix, days]
    · simp only [Source.Articles.loopListings, Date_Equal _ _ _ hfix, hyz, decide_False,
        Bool.false_eq_true, if_false, Date_Add_day _ _ hfix]
      obtain ⟨as, has⟩ := hall (Date (y + 1) 0 0 0 0 s.moscow)
      simp only [has, formArticlesURL, Date_YMD _ _ hfix]
      rw [ih (y + 1) (by omega) (by omega)]
      have hcount : (z - y).toNat = (z - (y + 1)).toNat + 1 := by omega
      rw [hcount, days_succ]
      rfl

/-- What `Articles` requests, with Moscow at a fixed offset: when `from` is not after
the current time, every call of
`articles` succeeds and the calendar date of `from` is not after that of the current
time, each read in its own location, then with enough fuel the listings requested are
those of these dates from the first through the last, one each, in ascending order. -/
theorem Source.Articles.listings_own_dates (s : Source) (hfix : s.moscow.transitions = [])
    (now : Time) (fuel : Nat) (frm : Time)
    (hall : ∀ t, ∃ as, s.articles t = .ok as) (hle : frm.After now = false)
    (hd : frm.YMD ≤ now.YMD) (hf : (now.YMD - frm.YMD).toNat < fuel) :
    Source.Articles.listings s now fuel frm =
      some (days frm.YMD ((now.YMD - frm.YMD).toNat + 1)) := by
  unfold Source.Articles.listings
  obtain ⟨as, has⟩ := hall frm
  simp only [hle, Bool.false_eq_true, if_false, has, Source.toDateWithTime, formArticlesURL]
  rw [Source.Articles.loopListings_days s hfix hall now.YMD fuel frm.YMD hd hf, days_succ]
  rfl

/-- With Moscow at a fixed offset: when the calendar date of `from` is after that of
the current time, each read in its own location, `from` is not after the current time and every call of `articles`
succeeds, `Articles` is still running after any number of rounds of its loop. -/
theorem Source.Articles.never_returns (s : Source) (hfix : s.moscow.transitions = [])
    (now : Time) (frm : Time)
    (hall : ∀ t, ∃ as, s.articles t = .ok as) (hle : frm.After now = false)
    (hd : now.YMD < frm.YMD) (fuel : Nat) :
    s.Articles now fuel frm = none := by
  unfold Source.Articles
  obtain ⟨as, has⟩ := hall frm
  simp only [hle, Bool.false_eq_true, if_false, has, Source.toDateWithTime]
  exact Source.Articles.loop_runs_on s hfix hall now.YMD fuel frm.YMD as hd

/-- With Moscow at a fixed offset: when `from` and the current time are expressed in
locations in which their calendar dates are their Moscow dates, `from` is not after the current time and every
call of `articles` succeeds, then with enough fuel `Articles` returns, and the
listings it requests are those of the Moscow dates from that of `from` through that of
the current time, one each, in ascending order. -/
theorem Source.Articles.listings_moscow (s : Source) (hfix : s.moscow.transitions = [])
    (now : Time) (fuel : Nat) (frm : Time)
    (hall : ∀ t, ∃ as, s.articles t = .ok as) (hle : frm.After now = false)
    (hzf : frm.YMD = (frm.In s.moscow).YMD) (hzn : now.YMD = (now.In s.moscow).YMD)
    (hf : ((now.In s.moscow).YMD - (frm.In s.moscow).YMD).toNat < fuel) :
    (s.Articles now fuel frm).isSome = true
      ∧ Source.Articles.listings s now fuel frm =
          some (days (frm.In s.moscow).YMD
            (((now.In s.moscow).YMD - (frm.In s.moscow).YMD).toNat + 1)) := by
  have hd : frm.YMD ≤ now.YMD := by
    rw [hzf, hzn]
    simp only [Time.After, decide_eq_false_iff_not, not_lt] at hle
    simp only [Time.In, Time.YMD, Time.wall_fixed ⟨frm.ns, s.moscow⟩ hfix,
      Time.wall_fixed ⟨now.ns, s.moscow⟩ hfix, Hour, Minute, Second, time.Nanosecond]
    omega
  have hl := Source.Articles.listings_own_dates s hfix now fuel frm hall hle hd
    (by rw [hzf, hzn]; exact hf)
  rw [hzf, hzn] at hl
  refine ⟨?_, hl⟩
  rw [← Source.Articles.listings_isSome, hl]
  rfl

end lentaru

namespace lentaru

open time entity

/-- Every call of `articles` succeeds on the site whose listings are all empty. -/
theorem quietSource_articles (t : Time) : ∃ as, quietSource.articles t = .ok as :=
  ⟨[], rfl⟩

/-- C11 (the code departs from the claim). The days `Articles` walks are the calendar
dates of `from` and of the current time read in their own locations, not in Moscow.
With both expressed in UTC, `from` = 2024-01-09T21:31 and the current time
2024-01-09T22:00, which are both on 2024-01-10 in Moscow, `Articles` requests the
listing of 2024-01-09 and no other.  With that `from` and the current time
2024-01-10T01:00 expressed in Moscow time it requests the listings of 2024-01-09 and
of 2024-01-10.  With `from` = 2024-01-10T00:30 expressed in UTC and the current time
an hour later expressed five hours behind UTC, where the date is still 2024-01-09,
`from` is not after the current time, every listing is served, and the loop never
ends: `Articles` is still running after any number of rounds. -/
theorem Articles_listings_off_moscow :
    (nightFrom.After lateNowUTC = false
        ∧ (nightFrom.In Moscow).YMD = ordinal 2024 1 10
        ∧ (lateNowUTC.In Moscow).YMD = ordinal 2024 1 10
        ∧ Source.Articles.listings nightSource lateNowUTC 5 nightFrom =
            some [ordinal 2024 1 9])
      ∧ (nightFrom.After nightNow = false
          ∧ (nightNow.In Moscow).YMD = ordinal 2024 1 10
          ∧ Source.Articles.listings nightSource nightNow 5 nightFrom =
              some [ordinal 2024 1 9, ordinal 2024 1 10])
      ∧ (aheadFrom.After behindNow = false
          ∧ (aheadFrom.In Moscow).YMD = ordinal 2024 1 10
          ∧ (behindNow.In Moscow).YMD = ordinal 2024 1 10
          ∧ (∀ t, ∃ as, quietSource.articles t = .ok as)
          ∧ ∀ fuel, quietSource.Articles behindNow fuel aheadFrom = none) :=
  ⟨by decide, by decide,
   by decide, by decide, by decide, quietSource_articles,
   Source.Articles.never_returns quietSource rfl behindNow aheadFrom quietSource_articles
     (by decide) (by decide)⟩

end lentaru
